import Mathlib

/-!
Verification of the qic core against its source.

Strings are modelled as `List Char`.  JavaScript's
`s.split(from).join(to)` (exact literal replacement, used both by
`replaceImageUrls` in the URL module and inline by `verifyOnlyUrlChanges`
in diffCheck.js) is embedded as `splitJoin`.  The model of `split`
requires a nonempty pattern (the source only ever splits on URLs;
JavaScript's `split("")` per-character behaviour is not modelled, and
theorems that depend on the pattern carry nonemptiness hypotheses).
-/

namespace Qic

/-- `begins f s` is true when `f` is an initial segment of `s`
(JavaScript `s.startsWith(f)` at offset 0). -/
def begins : List Char → List Char → Bool
  | [], _ => true
  | _ :: _, [] => false
  | c :: f, d :: s => c = d && begins f s

/-- Prepend a character to the first piece of a split result. -/
def consHead (c : Char) : List (List Char) → List (List Char)
  | [] => [[c]]
  | l :: ls => (c :: l) :: ls

/-- `splitStr f s` is JavaScript `s.split(f)` for a nonempty pattern `f`:
leftmost, non-overlapping occurrences of `f` delimit the pieces. -/
def splitStr (f : List Char) (s : List Char) : List (List Char) :=
  if h : 0 < f.length ∧ begins f s = true then
    [] :: splitStr f (s.drop f.length)
  else
    match s with
    | [] => [[]]
    | c :: s' => consHead c (splitStr f s')
termination_by s.length
decreasing_by
  · simp only [List.length_drop]
    have h1 := h.1
    have h2 : 0 < s.length := by
      cases s with
      | nil =>
        cases f with
        | nil => simp at h1
        | cons c f => simp [begins] at h
      | cons c s' => simp
    omega
  · simp only [List.length_cons]
    omega

/-- JavaScript `parts.join(t)`. -/
def joinWith (t : List Char) : List (List Char) → List Char
  | [] => []
  | [p] => p
  | p :: ps => p ++ t ++ joinWith t ps

/-- JavaScript `s.split(f).join(t)`: replace every occurrence of `f` in
`s` by `t` (exact literal, all occurrences). -/
def splitJoin (f t s : List Char) : List Char :=
  joinWith t (splitStr f s)

/-- Embedding of `replaceImageUrls(markdown, urlMap)` (URL module):
fold the ordered url map, each entry applied by `out.split(from).join(to)`.
A `Map` iterates in insertion order with unique keys; the model takes an
association list in that order. -/
def replaceImageUrls (markdown : List Char) (urlMap : List (List Char × List Char)) : List Char :=
  urlMap.foldl (fun out e => splitJoin e.1 e.2 out) markdown

/-! ### normalizeMarkdown (diffCheck.js) -/

/-- Embedding of `s.replace(/\r\n/g, "\n")`: leftmost non-overlapping
CRLF pairs become LF; the replacement is not rescanned, matching the
single left-to-right pass of the JavaScript regex. -/
def stripCRLF : List Char → List Char
  | [] => []
  | [c] => [c]
  | c :: d :: rest =>
    if c = '\r' ∧ d = '\n' then '\n' :: stripCRLF rest
    else c :: stripCRLF (d :: rest)

/-- JavaScript `lf.split("\n")`. -/
def splitLines : List Char → List (List Char)
  | [] => [[]]
  | c :: rest => if c = '\n' then [] :: splitLines rest else consHead c (splitLines rest)

/-- JavaScript `lines.join("\n")`. -/
def joinLines : List (List Char) → List Char :=
  joinWith ['\n']

/-- Space or horizontal tab, the character class `[ \t]` of the
trailing-whitespace regex. -/
def isWsTab (c : Char) : Bool :=
  c = ' ' || c = '\t'

/-- Embedding of `l.replace(/[ \t]+$/g, "")`: strip trailing spaces/tabs. -/
def rstripLine (l : List Char) : List Char :=
  (l.reverse.dropWhile isWsTab).reverse

/-- Embedding of `.replace(/\n+$/g, "")`: strip trailing newlines. -/
def stripTrailNL (s : List Char) : List Char :=
  (s.reverse.dropWhile (· = '\n')).reverse

/-- Embedding of `normalizeMarkdown` (diffCheck.js): CRLF→LF, strip
trailing spaces/tabs from each line, strip trailing newlines at EOF. -/
def normalizeMarkdown (s : List Char) : List Char :=
  stripTrailNL (joinLines ((splitLines (stripCRLF s)).map rstripLine))

/-! ### verifyOnlyUrlChanges (diffCheck.js) -/

/-- Index of the first mismatch between two strings (the scan loop in
`verifyOnlyUrlChanges`; equals the shorter length when one is an initial
segment of the other). -/
def firstDiffIdx : List Char → List Char → Nat
  | x :: a, y :: b => if x = y then firstDiffIdx a b + 1 else 0
  | _, _ => 0

/-- JavaScript `s.slice(a, b)` for `0 ≤ a ≤ b` (clipping at the length). -/
def jsSlice (s : List Char) (a b : Nat) : List Char :=
  (s.drop a).take (b - a)

/-- The `±120`-character context window around the divergence index. -/
def ctxWindow (s : List Char) (i : Nat) : List Char :=
  jsSlice s (i - 120) (min s.length (i + 120))

/-- Result object of `verifyOnlyUrlChanges`.  Fields absent on the
success path are `none`. -/
structure VerifyResult where
  ok : Bool
  reason : List Char
  firstDiffIndex : Option Nat
  expectedContext : Option (List Char)
  currentContext : Option (List Char)
  expectedLength : Option Nat
  currentLength : Option Nat

/-- Embedding of `verifyOnlyUrlChanges({originalBody, currentBody, urlMap})`
(diffCheck.js): build the expected body by the same split/join fold used
by `replaceImageUrls`, normalize both sides, compare; on mismatch report
the first divergence index, context windows and lengths. -/
def verifyOnlyUrlChanges (originalBody currentBody : List Char)
    (urlMap : List (List Char × List Char)) : VerifyResult :=
  let expected := urlMap.foldl (fun out e => splitJoin e.1 e.2 out) originalBody
  let nExpected := normalizeMarkdown expected
  let nCurrent := normalizeMarkdown currentBody
  if nExpected = nCurrent then
    ⟨true, "only_url_changes".toList, none, none, none, none, none⟩
  else
    let i := firstDiffIdx nExpected nCurrent
    ⟨false, "non_url_change_detected".toList, some i,
      some (ctxWindow nExpected i), some (ctxWindow nCurrent i),
      some nExpected.length, some nCurrent.length⟩

/-! ### Auxiliary definitions used by the normalization lemmas -/

/-- Replace each LF of a CR-free string by CRLF (the "same text in
Windows line-ending style" transformation of the tolerance claim). -/
def expandCRLF : List Char → List Char
  | [] => []
  | c :: r => if c = '\n' then '\r' :: '\n' :: expandCRLF r else c :: expandCRLF r

/-- Apply `f` to the last element of a list. -/
def modLast (f : List Char → List Char) : List (List Char) → List (List Char)
  | [] => []
  | [l] => [f l]
  | l :: ls => l :: modLast f ls

/-- Drop trailing empty lines; an all-empty line list collapses to a
single empty line (the line decomposition of the empty string). -/
def dropTrailEmpty (ls : List (List Char)) : List (List Char) :=
  if (ls.reverse.dropWhile (· = [])).reverse = [] then [[]]
  else (ls.reverse.dropWhile (· = [])).reverse

/-- Characters that survive every stage of `normalizeMarkdown`
(everything except space, tab, CR, LF). -/
def keepCh (c : Char) : Bool :=
  !(c = ' ' || c = '\t' || c = '\r' || c = '\n')

/-! ### Image optimizer (images.js)

The renderer (`renderBuffer`, built on the sharp library) is abstracted
by a function giving the encoded byte length of a render at given
width, height and integer quality; input path, alpha handling and
format-specific encoder options are fixed throughout one call of the
optimizer, so they are absorbed into that function. -/

/-- Output format inferred from the output path extension
(`inferOutputFormat`); other extensions are rejected before rendering. -/
inductive OutFormat
  | jpeg
  | png
deriving DecidableEq

/-- Lower end of the binary-search quality domain of
`findBestUnderTarget` (`ranges.qMin`). -/
def qMinOf : OutFormat → Nat
  | .jpeg => 55
  | .png => 40

/-- Upper end of the binary-search quality domain (`ranges.qMax`). -/
def qMaxOf : OutFormat → Nat
  | .jpeg => 95
  | .png => 100

/-- The loop of `findBestUnderTarget`: at most `fuel` iterations while
`low ≤ high`; the probe quality is `Math.round((low+high)/2)`, which for
naturals is `(low+high+1)/2` (ties round up).  A probe whose rendered
size fits the budget is recorded in `best` (quality and byte length) and
the search narrows upward, otherwise downward. -/
def findBestGo (render : Nat → Nat) (target : Nat) :
    Nat → Nat → Nat → Option (Nat × Nat) → Option (Nat × Nat)
  | 0, _, _, best => best
  | fuel + 1, low, high, best =>
    if low ≤ high then
      if render ((low + high + 1) / 2) ≤ target then
        findBestGo render target fuel ((low + high + 1) / 2 + 1) high
          (some ((low + high + 1) / 2, render ((low + high + 1) / 2)))
      else
        findBestGo render target fuel low ((low + high + 1) / 2 - 1) best
    else best

/-- The number of render probes the same loop performs: one per
iteration that passes the `low ≤ high` check. -/
def findBestProbesGo (render : Nat → Nat) (target : Nat) : Nat → Nat → Nat → Nat
  | 0, _, _ => 0
  | fuel + 1, low, high =>
    if low ≤ high then
      if render ((low + high + 1) / 2) ≤ target then
        findBestProbesGo render target fuel ((low + high + 1) / 2 + 1) high + 1
      else
        findBestProbesGo render target fuel low ((low + high + 1) / 2 - 1) + 1
    else 0

/-- Embedding of `findBestUnderTarget` (images.js): bounded binary
search (9 iterations) for the highest quality whose rendered byte size
is ≤ `targetBytes`; `none` when no probe fit. -/
def findBestUnderTarget (render : Nat → Nat) (fmt : OutFormat) (target : Nat) :
    Option (Nat × Nat) :=
  findBestGo render target 9 (qMinOf fmt) (qMaxOf fmt) none

/-- Number of render probes performed by `findBestUnderTarget`. -/
def findBestProbes (render : Nat → Nat) (fmt : OutFormat) (target : Nat) : Nat :=
  findBestProbesGo render target 9 (qMinOf fmt) (qMaxOf fmt)

/-- Round `n / d` to the nearest integer, ties to even — the IEEE-754
default rounding applied to an exact quotient (`d > 0`). -/
def roundEvenDiv (n d : Nat) : Nat :=
  let q := n / d
  let r := n % d
  if 2 * r < d then q else if d < 2 * r then q + 1 else if q % 2 = 0 then q else q + 1

/-- Bit length of a natural number (`0` for `0`); the fuel argument is
always at least the bit length, so the recursion terminates
structurally. -/
def bitLenGo : Nat → Nat → Nat
  | 0, _ => 0
  | fuel + 1, n => if n = 0 then 0 else bitLenGo fuel (n / 2) + 1

def bitLen (n : Nat) : Nat :=
  bitLenGo n n

/-- Round the exact value `v / 2^53` to a binary64 double, returned as
its (exact) numerator over `2^53`: keep the top 53 significant bits of
`v`, ties to even; values that already fit are exact.  The magnitudes
arising below stay far under the binary64 overflow threshold. -/
def fl53 (v : Nat) : Nat :=
  if v ≤ 2 ^ 53 then v
  else roundEvenDiv v (2 ^ (bitLen v - 53)) * 2 ^ (bitLen v - 53)

/-- The binary64 double nearest `k / 1000`, as its numerator over
`2^53` (for `500 ≤ k ≤ 1000` that is the normalized 53-bit
significand): the scale value the program's `Math.round(...)/1000`
produces for `k` thousandths. -/
def scaleSig (k : Nat) : Nat :=
  roundEvenDiv (k * 2 ^ 53) 1000

/-- `Math.max(1, Math.round(originalDim * scale))` under binary64
arithmetic, for a scale of `k` thousandths: the exact product
`dim * (scaleSig k / 2^53)` is rounded once to binary64 (`fl53`, ties
to even), and `Math.round` of the resulting double (closest integer,
ties toward `+∞`) is `⌊x + 1/2⌋` evaluated on its exact rational value.
This is exact for every `dim < 2^53`, i.e. for every dimension a
JavaScript number holds losslessly (sharp dimensions are far smaller);
e.g. `scaledDim 300 815 = 244`, matching the code
(`300 * 0.815` evaluates to `244.49999999999997`), where exact rational
rounding would give `245`. -/
def scaledDim (dim k : Nat) : Nat :=
  max 1 ((fl53 (dim * scaleSig k) + 2 ^ 52) / 2 ^ 53)

/-- The scale sequence of the optimizer loop
`for (scale = 1.0; scale >= 0.55; scale = Math.round(scale*0.95*1000)/1000)`,
in thousandths.  The iteration is input-independent, so its trace is
embedded as a literal list: evaluating the loop under binary64
arithmetic with `Math.round` (ties toward +∞) gives
1.0, .95, .903, .858, .815, .774, .735, .698, .663, .63, .598, .568 and
stops at .54 < 0.55.  (Note `0.903*0.95*1000` is exactly 857.85, rounded
up to 858; at the tail the binary64 products for `0.63*0.95*1000` and
`0.598*0.95*1000` fall just below the ties 598.5 and 568.5, so the code
produces 598 and 568 where exact rational iteration would give 599 and
569.) -/
def scaleSeq : List Nat :=
  [1000, 950, 903, 858, 815, 774, 735, 698, 663, 630, 598, 568]

/-- The quality used by the fallback render (60 for JPEG, 70 for PNG). -/
def fallbackQuality : OutFormat → Nat
  | .jpeg => 60
  | .png => 70

/-- The scale loop of `optimizeImageToTargetBytes`: try each scale in
order and accept the first at which `findBestUnderTarget` finds a
fitting quality. -/
def optimizeLoop (R : Nat → Nat → Nat → Nat) (w h target : Nat) (fmt : OutFormat) :
    List Nat → Option (Nat × (Nat × Nat))
  | [] => none
  | k :: ks =>
    match findBestUnderTarget (fun q => R (scaledDim w k) (scaledDim h k) q) fmt target with
    | some res => some (k, res)
    | none => optimizeLoop R w h target fmt ks

/-- Result of one optimizer invocation: either the best candidate found
at the first succeeding scale, or the fallback render. -/
inductive OptimizeOutcome
  | selected (scale quality size : Nat)
  | fallbackOut (width height quality size : Nat)
deriving DecidableEq

/-- Embedding of `optimizeImageToTargetBytes` (images.js) for a source
whose dimensions `w × h` are readable, rendering through the abstract
encoder `R width height quality`: run the scale loop; if no scale/quality
combination fits, render once at the 0.55 scale floor with the fixed
conservative quality and accept it unconditionally. -/
def optimizeImageToTargetBytes (R : Nat → Nat → Nat → Nat) (w h target : Nat)
    (fmt : OutFormat) : OptimizeOutcome :=
  match optimizeLoop R w h target fmt scaleSeq with
  | some (k, (q, size)) => .selected k q size
  | none =>
    .fallbackOut (scaledDim w 550) (scaledDim h 550) (fallbackQuality fmt)
      (R (scaledDim w 550) (scaledDim h 550) (fallbackQuality fmt))

/-- Round-half-up of `0.95^k · 1000` computed in exact rational
arithmetic: the scale value the specification's sequence
"1.0, 0.95, 0.95², 0.95³, … rounded to 3 decimal places" denotes at
index `k`. -/
def claimScale (k : Nat) : Nat :=
  (95 ^ k * 1000 * 2 + 100 ^ k) / (2 * 100 ^ k)

/-! ### Download classification and per-URL tolerance (images.js / qic.js) -/

/-- Outcome of the HTTP GET inside `downloadImageToFile`: success with
the downloaded byte count, or failure carrying the HTTP response status
when one exists (`e?.response?.status ?? null`; network-level failures
carry none). -/
inductive DlOutcome
  | success (byteLength : Nat)
  | failure (status : Option Nat)
deriving DecidableEq

/-- Error-code classification of `downloadImageToFile`'s catch block:
`ACCESS_DENIED` when the status is 403, `DOWNLOAD_FAILED` otherwise. -/
def dlErrCode (status : Option Nat) : List Char :=
  if status = some 403 then "ACCESS_DENIED".toList else "DOWNLOAD_FAILED".toList

/-- The per-URL selection of `runQic`'s scope=all phase, as a fold over
the unique URLs paired with their download outcomes (the source runs the
per-URL bodies through a worker pool and collects the results in array
order; any non-tolerated throw rejects the whole phase, modelled as
`.error url`).  A 403-classified failure records the URL as skipped and
continues; any other failure aborts; a success within the byte tolerance
is left untouched; a success above it joins `urlsToProcess`. -/
def runSelectAll (target : Nat) :
    List (List Char × DlOutcome) → Except (List Char) (List (List Char) × List (List Char))
  | [] => .ok ([], [])
  | (u, .failure st) :: rest =>
    if dlErrCode st = "ACCESS_DENIED".toList then
      match runSelectAll target rest with
      | .ok (p, sk) => .ok (p, u :: sk)
      | .error e => .error e
    else .error u
  | (u, .success n) :: rest =>
    if n ≤ target then runSelectAll target rest
    else
      match runSelectAll target rest with
      | .ok (p, sk) => .ok (u :: p, sk)
      | .error e => .error e

/-- The URLs whose download failed (all of them 403-skipped in a
successful run): the expected `skippedDownloadUrls`. -/
def skF (es : List (List Char × DlOutcome)) : List (List Char) :=
  es.filterMap (fun e => match e.2 with
    | .failure _ => some e.1
    | .success _ => none)

/-- The URLs downloaded successfully with a size above the tolerance:
the expected `urlsToProcess`. -/
def pF (target : Nat) (es : List (List Char × DlOutcome)) : List (List Char) :=
  es.filterMap (fun e => match e.2 with
    | .success n => if target < n then some e.1 else none
    | .failure _ => none)

/-! ### URL extraction (URL module)

`extractImageUrlsFromMarkdown` scans with two regexes —
`!\[[^\]]*]\((\S+?)(?:\s+["'][^"']*["'])?\)` for markdown images and
`<img\b[^>]*?\bsrc\s*=\s*["']([^"']+)["'][^>]*?>` (case-insensitive) for
HTML img tags — and keeps the captures that `isHttpUrl` accepts, in a
`Set` (insertion order, first occurrence).  Both regexes are
deterministic once lazy/greedy operator semantics are spelled out, so
they are embedded as direct matching functions; `matchAll` semantics is
scanning left to right, resuming after each match.  Neither regex has
the `u` flag, so `\b`/`\w` are the ASCII word class, while `\s` and
`String.prototype.trim` use the full ECMAScript WhiteSpace and
LineTerminator sets. -/

/-- One urlMap entry: (from, to). -/
abbrev Ent := List Char × List Char

/-- The inverse map: each new URL maps back to its old URL, in the same
entry order. -/
def invMap (m : List Ent) : List Ent :=
  m.map (fun e => (e.2, e.1))

/-- `c` occurs nowhere in `s`. -/
def Disj (t s : List Char) : Prop :=
  ∀ c ∈ t, c ∉ s

/-- A decomposition segment: a literal, followed by the inserted `to`
text of the recorded entry. -/
abbrev Seg := List Char × Ent

/-- Read a decomposition back as the document it stands for, markers
interpreted as their `to` text. -/
def interpS : List Seg → List Char → List Char
  | [], last => last
  | (p, e) :: rest, last => p ++ e.2 ++ interpS rest last

/-- Read a decomposition with every marker interpreted as its `from`
text instead: the document before those substitutions. -/
def unmarkS : List Seg → List Char → List Char
  | [], last => last
  | (p, e) :: rest, last => p ++ e.1 ++ unmarkS rest last

/-- Turn the pieces of a split literal into segments: entry `e`'s marker
between consecutive pieces, the final piece keeping the following marker
`ej`. -/
def markPieces (e ej : Ent) : List (List Char) → List Seg
  | [] => []
  | [q] => [(q, ej)]
  | q :: qs => (q, e) :: markPieces e ej qs

/-- Segments for the split pieces of the final literal. -/
def expandLast (e : Ent) : List (List Char) → List Seg × List Char
  | [] => ([], [])
  | [q] => ([], q)
  | q :: qs => ((q, e) :: (expandLast e qs).1, (expandLast e qs).2)

/-- Apply one forward substitution entry to a decomposition: split every
literal at occurrences of `e.1` and insert `e` markers there. -/
def sigmaSubst (e : Ent) : List Seg → List Char → List Seg × List Char
  | [], last => expandLast e (splitStr e.1 last)
  | (p, j) :: rest, last =>
    (markPieces e j (splitStr e.1 p) ++ (sigmaSubst e rest last).1,
     (sigmaSubst e rest last).2)

/-- Undo one entry on a decomposition: every marker for `e` becomes the
literal text `e.1`, merged into the surrounding literals. -/
def undoStep (e : Ent) : List Seg → List Char → List Seg × List Char
  | [], last => ([], last)
  | (p, j) :: rest, last =>
    if j = e then
      match undoStep e rest last with
      | ([], l) => ([], p ++ e.1 ++ l)
      | ((q, k) :: ps', l) => ((p ++ e.1 ++ q, k) :: ps', l)
    else ((p, j) :: (undoStep e rest last).1, (undoStep e rest last).2)

/-- The forward pass at the decomposition level. -/
def fwdS : List Ent → List Seg × List Char → List Seg × List Char
  | [], σ => σ
  | e :: rest, σ => fwdS rest (sigmaSubst e σ.1 σ.2)

/-- The backward pass at the decomposition level. -/
def bwdS : List Ent → List Seg × List Char → List Seg × List Char
  | [], σ => σ
  | e :: rest, σ => bwdS rest (undoStep e σ.1 σ.2)

/-- Every marker of the decomposition is an entry of `m`. -/
def MarkersIn (m : List Ent) (ps : List Seg) : Prop :=
  ∀ pr ∈ ps, pr.2 ∈ m

/-- No replacement URL of `m` shares a character with any literal of the
decomposition. -/
def LitsDisj (m : List Ent) (ps : List Seg) (last : List Char) : Prop :=
  (∀ pr ∈ ps, ∀ e ∈ m, Disj e.2 pr.1) ∧ (∀ e ∈ m, Disj e.2 last)

/-- The freshness hypothesis of the amended round-trip claim: every
entry has nonempty URLs, and the characters of each new URL occur
neither in the document, nor in any old URL, nor in any other new
URL. -/
def FreshMap (doc : List Char) (m : List Ent) : Prop :=
  ∀ e ∈ m, e.1 ≠ [] ∧ e.2 ≠ [] ∧ Disj e.2 doc ∧
    ∀ e' ∈ m, Disj e.2 e'.1 ∧ (e' ≠ e → Disj e.2 e'.2)

/-- Prepend text to the first piece of a split result. -/
def prependFirst (x : List Char) : List (List Char) → List (List Char)
  | [] => [x]
  | p :: ps => (x ++ p) :: ps

/-! ### Lemmas about the normalization pipeline -/

theorem splitLines_ne_nil (s : List Char) : splitLines s ≠ [] := by
  induction s with
  | nil => simp [splitLines]
  | cons c r ih =>
    by_cases h : c = '\n'
    · simp [splitLines, h]
    · simp only [splitLines, if_neg h]
      cases hr : splitLines r with
      | nil => exact absurd hr ih
      | cons l ls => simp [consHead]

theorem joinLines_consHead (c : Char) (ls : List (List Char)) (h : ls ≠ []) :
    joinLines (consHead c ls) = c :: joinLines ls := by
  cases ls with
  | nil => exact absurd rfl h
  | cons l ls' =>
    cases ls' with
    | nil => simp [consHead, joinLines, joinWith]
    | cons l2 ls2 => simp [consHead, joinLines, joinWith]

theorem consHead_cons (c : Char) (l : List Char) (ls : List (List Char)) :
    consHead c (l :: ls) = (c :: l) :: ls := rfl

theorem joinLines_splitLines (s : List Char) : joinLines (splitLines s) = s := by
  induction s with
  | nil => simp [splitLines, joinLines, joinWith]
  | cons c r ih =>
    by_cases h : c = '\n'
    · subst h
      rw [show splitLines ('\n' :: r) = [] :: splitLines r by rw [splitLines, if_pos rfl]]
      cases hr : splitLines r with
      | nil => exact absurd hr (splitLines_ne_nil r)
      | cons l ls =>
        have hstep : joinLines ([] :: l :: ls) = '\n' :: joinLines (l :: ls) := by
          simp [joinLines, joinWith]
        rw [hstep, ← hr, ih]
    · simp only [splitLines, if_neg h]
      rw [joinLines_consHead c _ (splitLines_ne_nil r), ih]

theorem mem_splitLines_no_nl {l : List Char} {s : List Char}
    (hl : l ∈ splitLines s) : '\n' ∉ l := by
  induction s generalizing l with
  | nil =>
    simp only [splitLines, List.mem_singleton] at hl
    simp [hl]
  | cons c r ih =>
    by_cases h : c = '\n'
    · simp only [splitLines, if_pos h] at hl
      rcases List.mem_cons.mp hl with h1 | h1
      · simp [h1]
      · exact ih h1
    · simp only [splitLines, if_neg h] at hl
      cases hr : splitLines r with
      | nil => exact absurd hr (splitLines_ne_nil r)
      | cons p ps =>
        rw [hr, consHead_cons] at hl
        rcases List.mem_cons.mp hl with h1 | h1
        · subst h1
          intro hmem
          rcases List.mem_cons.mp hmem with h2 | h2
          · exact h (h2.symm)
          · exact ih (hr ▸ List.mem_cons_self _ _) h2
        · exact ih (hr ▸ List.mem_cons_of_mem _ h1)

theorem splitLines_no_nl_single {l : List Char} (hl : '\n' ∉ l) :
    splitLines l = [l] := by
  induction l with
  | nil => simp [splitLines]
  | cons c r ihr =>
    have hc : c ≠ '\n' := fun h => hl (h ▸ List.mem_cons_self _ _)
    have hr : '\n' ∉ r := fun h => hl (List.mem_cons_of_mem _ h)
    rw [splitLines, if_neg (by simp [hc]), ihr hr, consHead_cons]

theorem splitLines_append_nl (x y : List Char) (hx : '\n' ∉ x) :
    splitLines (x ++ '\n' :: y) = x :: splitLines y := by
  induction x with
  | nil =>
    simp only [List.nil_append]
    rw [splitLines, if_pos rfl]
  | cons c r ihr =>
    have hc : c ≠ '\n' := fun h => hx (h ▸ List.mem_cons_self _ _)
    have hr : '\n' ∉ r := fun h => hx (List.mem_cons_of_mem _ h)
    rw [List.cons_append, splitLines, if_neg (by simp [hc]), ihr hr, consHead_cons]

theorem splitLines_joinLines (ls : List (List Char)) (hne : ls ≠ [])
    (hnl : ∀ l ∈ ls, '\n' ∉ l) : splitLines (joinLines ls) = ls := by
  induction ls with
  | nil => exact absurd rfl hne
  | cons l ls' ih =>
    cases ls' with
    | nil =>
      simp only [joinLines, joinWith]
      exact splitLines_no_nl_single (hnl l (List.mem_cons_self _ _))
    | cons l2 ls2 =>
      have hstep : joinLines (l :: l2 :: ls2) = l ++ '\n' :: joinLines (l2 :: ls2) := by
        simp [joinLines, joinWith]
      have hl : '\n' ∉ l := hnl l (List.mem_cons_self _ _)
      have hrest : splitLines (joinLines (l2 :: ls2)) = l2 :: ls2 :=
        ih (by simp) (fun x hx => hnl x (List.mem_cons_of_mem _ hx))
      rw [hstep, splitLines_append_nl _ _ hl, hrest]

theorem dropWhile_dropWhile {α : Type} (p : α → Bool) (l : List α) :
    (l.dropWhile p).dropWhile p = l.dropWhile p := by
  induction l with
  | nil => simp
  | cons c r ih =>
    by_cases h : p c = true
    · simp [List.dropWhile_cons, h, ih]
    · simp [List.dropWhile_cons, h]

theorem dropWhile_append_all {α : Type} (p : α → Bool) (a b : List α)
    (ha : ∀ c ∈ a, p c = true) : (a ++ b).dropWhile p = b.dropWhile p := by
  induction a with
  | nil => simp
  | cons c r ih =>
    have hc : p c = true := ha c (List.mem_cons_self _ _)
    simp only [List.cons_append, List.dropWhile_cons, hc, if_true]
    exact ih (fun x hx => ha x (List.mem_cons_of_mem _ hx))

theorem mem_dropWhile {α : Type} (p : α → Bool) {c : α} {l : List α}
    (h : c ∈ l.dropWhile p) : c ∈ l :=
  (List.dropWhile_sublist p (l := l)).mem h

theorem rstripLine_idem (l : List Char) : rstripLine (rstripLine l) = rstripLine l := by
  unfold rstripLine
  rw [List.reverse_reverse, dropWhile_dropWhile]

theorem rstripLine_append_ws (l w : List Char) (hw : ∀ c ∈ w, isWsTab c = true) :
    rstripLine (l ++ w) = rstripLine l := by
  unfold rstripLine
  rw [List.reverse_append, dropWhile_append_all _ _ _ (by simpa using hw)]

theorem mem_rstripLine {c : Char} {l : List Char} (h : c ∈ rstripLine l) : c ∈ l := by
  unfold rstripLine at h
  rw [List.mem_reverse] at h
  exact List.mem_reverse.mp (mem_dropWhile _ h)

theorem stripTrailNL_append_nl (s : List Char) :
    stripTrailNL (s ++ ['\n']) = stripTrailNL s := by
  unfold stripTrailNL
  rw [List.reverse_append]
  simp [List.dropWhile_cons]

theorem stripTrailNL_fix {s : List Char} {c : Char} (hc : c ≠ '\n')
    (h : s.getLast? = some c) : stripTrailNL s = s := by
  unfold stripTrailNL
  rcases List.getLast?_eq_some_iff.mp h with ⟨s', rfl⟩
  rw [List.reverse_append]
  simp [List.dropWhile_cons, hc]

theorem mem_stripTrailNL {c : Char} {s : List Char} (h : c ∈ stripTrailNL s) : c ∈ s := by
  unfold stripTrailNL at h
  rw [List.mem_reverse] at h
  exact List.mem_reverse.mp (mem_dropWhile _ h)

theorem stripCRLF_of_no_cr {s : List Char} (h : '\r' ∉ s) : stripCRLF s = s := by
  induction s with
  | nil => rfl
  | cons c r ih =>
    have hc : c ≠ '\r' := fun hx => h (hx ▸ List.mem_cons_self _ _)
    have hr : '\r' ∉ r := fun hx => h (List.mem_cons_of_mem _ hx)
    cases r with
    | nil => rfl
    | cons d r' =>
      rw [stripCRLF, if_neg (by simp [hc]), ih hr]

theorem mem_stripCRLF {c : Char} {s : List Char} (h : c ∈ stripCRLF s) : c ∈ s := by
  induction s using stripCRLF.induct with
  | case1 => simpa [stripCRLF] using h
  | case2 d => simpa [stripCRLF] using h
  | case3 a b rest hab ih =>
    rw [stripCRLF, if_pos hab] at h
    rcases List.mem_cons.mp h with h1 | h1
    · exact h1 ▸ hab.2 ▸ List.mem_cons_of_mem _ (List.mem_cons_self _ _)
    · exact List.mem_cons_of_mem _ (List.mem_cons_of_mem _ (ih h1))
  | case4 a b rest hab ih =>
    rw [stripCRLF, if_neg hab] at h
    rcases List.mem_cons.mp h with h1 | h1
    · exact h1 ▸ List.mem_cons_self _ _
    · exact List.mem_cons_of_mem _ (ih h1)

theorem mem_joinLines {c : Char} {ls : List (List Char)} (h : c ∈ joinLines ls) :
    c = '\n' ∨ ∃ l ∈ ls, c ∈ l := by
  induction ls with
  | nil => simp [joinLines, joinWith] at h
  | cons l ls' ih =>
    cases ls' with
    | nil =>
      simp only [joinLines, joinWith] at h
      exact Or.inr ⟨l, List.mem_cons_self _ _, h⟩
    | cons l2 ls2 =>
      have : joinLines (l :: l2 :: ls2) = l ++ '\n' :: joinLines (l2 :: ls2) := by
        simp [joinLines, joinWith]
      rw [this] at h
      rcases List.mem_append.mp h with h1 | h1
      · exact Or.inr ⟨l, List.mem_cons_self _ _, h1⟩
      · rcases List.mem_cons.mp h1 with h2 | h2
        · exact Or.inl h2
        · rcases ih h2 with h3 | ⟨x, hx, hcx⟩
          · exact Or.inl h3
          · exact Or.inr ⟨x, List.mem_cons_of_mem _ hx, hcx⟩

theorem mem_joinLines_of_mem {c : Char} {l : List Char} {ls : List (List Char)}
    (hl : l ∈ ls) (hc : c ∈ l) : c ∈ joinLines ls := by
  induction ls with
  | nil => simp at hl
  | cons x xs ihx =>
    cases xs with
    | nil =>
      rcases List.mem_cons.mp hl with h1 | h1
      · subst h1; simpa [joinLines, joinWith] using hc
      · simp at h1
    | cons y ys =>
      have hstep : joinLines (x :: y :: ys) = x ++ '\n' :: joinLines (y :: ys) := by
        simp [joinLines, joinWith]
      rw [hstep]
      rcases List.mem_cons.mp hl with h1 | h1
      · subst h1; exact List.mem_append.mpr (Or.inl hc)
      · exact List.mem_append.mpr (Or.inr (List.mem_cons_of_mem _ (ihx h1)))

theorem mem_splitLines_mem {c : Char} {l s : List Char}
    (hl : l ∈ splitLines s) (hc : c ∈ l) : c ∈ s := by
  have h := mem_joinLines_of_mem hl hc
  rwa [joinLines_splitLines] at h

theorem no_cr_normalizeMarkdown {s : List Char} (h : '\r' ∉ s) :
    '\r' ∉ normalizeMarkdown s := by
  intro hmem
  unfold normalizeMarkdown at hmem
  have h1 := mem_stripTrailNL hmem
  rcases mem_joinLines h1 with h2 | ⟨l, hl, hcl⟩
  · exact absurd h2 (by decide)
  · rcases List.mem_map.mp hl with ⟨l0, hl0, rfl⟩
    exact h (mem_stripCRLF (mem_splitLines_mem hl0 (mem_rstripLine hcl)))

theorem joinLines_snoc (xs : List (List Char)) (x : List Char) (h : xs ≠ []) :
    joinLines (xs ++ [x]) = joinLines xs ++ '\n' :: x := by
  induction xs with
  | nil => exact absurd rfl h
  | cons y ys ih =>
    cases ys with
    | nil => simp [joinLines, joinWith]
    | cons z zs =>
      have ih' := ih (by simp)
      simp only [List.cons_append] at ih' ⊢
      have h1 : joinLines (y :: z :: (zs ++ [x])) = y ++ '\n' :: joinLines (z :: (zs ++ [x])) := by
        simp [joinLines, joinWith]
      have h2 : joinLines (y :: z :: zs) = y ++ '\n' :: joinLines (z :: zs) := by
        simp [joinLines, joinWith]
      rw [h1, h2]
      rw [show z :: (zs ++ [x]) = (z :: zs) ++ [x] from rfl] at *
      rw [ih']
      simp

theorem dropTrailEmpty_snoc_nil (ls : List (List Char)) :
    dropTrailEmpty (ls ++ [([] : List Char)]) = dropTrailEmpty ls := by
  unfold dropTrailEmpty
  rw [List.reverse_append]
  simp [List.dropWhile_cons]

theorem dropTrailEmpty_snoc_ne (ls : List (List Char)) {l : List Char} (h : l ≠ []) :
    dropTrailEmpty (ls ++ [l]) = ls ++ [l] := by
  have hdw : (l :: ls.reverse).dropWhile (· = []) = l :: ls.reverse := by
    rw [List.dropWhile_cons, if_neg (by simpa using h)]
  unfold dropTrailEmpty
  rw [List.reverse_append, List.reverse_singleton, List.singleton_append, hdw]
  simp only [List.reverse_cons, List.reverse_reverse]
  rw [if_neg (by simp)]

theorem getLast?_append_cons (xs : List Char) (c : Char) (ys : List Char) :
    (xs ++ c :: ys).getLast? = (c :: ys).getLast? := by
  induction xs with
  | nil => rfl
  | cons d ds ih =>
    rw [List.cons_append, List.getLast?_cons]
    simp only [ih]
    cases ys <;> simp [List.getLast?_cons]

theorem stripTrailNL_joinLines (ls : List (List Char)) (hnl : ∀ l ∈ ls, '\n' ∉ l) :
    stripTrailNL (joinLines ls) = joinLines (dropTrailEmpty ls) := by
  induction ls using List.reverseRecOn with
  | nil => simp [joinLines, joinWith, stripTrailNL, dropTrailEmpty]
  | append_singleton ls l ih =>
    by_cases hl : l = ([] : List Char)
    · subst hl
      cases hls : ls with
      | nil => simp [joinLines, joinWith, stripTrailNL, dropTrailEmpty]
      | cons a as =>
        rw [← hls, joinLines_snoc _ _ (by rw [hls]; simp), dropTrailEmpty_snoc_nil]
        have : joinLines ls ++ '\n' :: ([] : List Char) = joinLines ls ++ ['\n'] := by simp
        rw [this, stripTrailNL_append_nl]
        exact ih (fun x hx => hnl x (List.mem_append.mpr (Or.inl hx)))
    · rw [dropTrailEmpty_snoc_ne _ hl]
      rcases List.exists_cons_of_ne_nil hl with ⟨c, l', rfl⟩
      have hcnl : c ≠ '\n' := by
        intro hc
        exact hnl (c :: l') (List.mem_append.mpr (Or.inr (List.mem_singleton.mpr rfl)))
          (hc ▸ List.mem_cons_self _ _)
      have hlast : (joinLines (ls ++ [c :: l'])).getLast? = ((c :: l').getLast?) := by
        cases hls : ls with
        | nil => simp [joinLines, joinWith]
        | cons a as =>
          rw [← hls, joinLines_snoc _ _ (by rw [hls]; simp)]
          rw [show joinLines ls ++ '\n' :: c :: l' = (joinLines ls ++ ['\n']) ++ c :: l' by simp]
          exact getLast?_append_cons _ _ _
      have hne : (c :: l') ≠ ([] : List Char) := by simp
      have hx1 : (c :: l').getLast? = some ((c :: l').getLast hne) :=
        List.getLast?_eq_getLast _ hne
      have hx2 : (c :: l').getLast hne ≠ '\n' := by
        intro hx
        exact hnl (c :: l') (List.mem_append.mpr (Or.inr (List.mem_singleton.mpr rfl)))
          (hx ▸ List.getLast_mem hne)
      exact stripTrailNL_fix hx2 (by rw [hlast, hx1])

theorem mem_dropTrailEmpty {x : List Char} {ls : List (List Char)}
    (h : x ∈ dropTrailEmpty ls) : x ∈ ls ∨ x = [] := by
  unfold dropTrailEmpty at h
  by_cases hr : (ls.reverse.dropWhile (· = [])).reverse = ([] : List (List Char))
  · rw [if_pos hr] at h
    exact Or.inr (List.mem_singleton.mp h)
  · rw [if_neg hr] at h
    rw [List.mem_reverse] at h
    exact Or.inl (List.mem_reverse.mp ((List.dropWhile_sublist _).mem h))

theorem dropTrailEmpty_ne_nil (ls : List (List Char)) : dropTrailEmpty ls ≠ [] := by
  unfold dropTrailEmpty
  by_cases hr : (ls.reverse.dropWhile (· = [])).reverse = ([] : List (List Char))
  · rw [if_pos hr]; simp
  · rw [if_neg hr]; exact hr

theorem dropTrailEmpty_idem (ls : List (List Char)) :
    dropTrailEmpty (dropTrailEmpty ls) = dropTrailEmpty ls := by
  unfold dropTrailEmpty
  by_cases hr : (ls.reverse.dropWhile (· = [])).reverse = ([] : List (List Char))
  · rw [if_pos hr]
    simp [List.dropWhile_cons]
  · rw [if_neg hr]
    rw [List.reverse_reverse, dropWhile_dropWhile, if_neg hr]

theorem normalizeMarkdown_as_join (s : List Char) (h : '\r' ∉ s) :
    normalizeMarkdown s = joinLines (dropTrailEmpty ((splitLines s).map rstripLine)) := by
  unfold normalizeMarkdown
  rw [stripCRLF_of_no_cr h]
  exact stripTrailNL_joinLines _ (fun l hl => by
    rcases List.mem_map.mp hl with ⟨l0, hl0, rfl⟩
    intro hmem
    exact mem_splitLines_no_nl hl0 (mem_rstripLine hmem))

/-- C10 (counterexample).  `normalizeMarkdown` is not idempotent: the
input `"\r\r\nx"` normalizes to `"\r\nx"` (the leftover CR of the
non-rescanned CRLF replacement now sits before an LF), and a second
normalization removes that CRLF as well. -/
theorem normalize_idempotent_counterexample :
    normalizeMarkdown (normalizeMarkdown "\r\r\nx".toList) ≠
      normalizeMarkdown "\r\r\nx".toList := by
  decide

/-- C10 (amended).  `normalizeMarkdown` is idempotent on every input that
contains no carriage return, so for such inputs the verifier's verdict is
the same whether or not its inputs were already normalized.  (The
unrestricted claim fails, see the counterexample.) -/
theorem normalize_idempotent_crfree (s : List Char) (h : '\r' ∉ s) :
    normalizeMarkdown (normalizeMarkdown s) = normalizeMarkdown s := by
  have hn : '\r' ∉ normalizeMarkdown s := no_cr_normalizeMarkdown h
  have hD := normalizeMarkdown_as_join s h
  have hDnl : ∀ l ∈ dropTrailEmpty ((splitLines s).map rstripLine), '\n' ∉ l := by
    intro l hl
    rcases mem_dropTrailEmpty hl with h1 | h1
    · rcases List.mem_map.mp h1 with ⟨l0, hl0, rfl⟩
      intro hmem
      exact mem_splitLines_no_nl hl0 (mem_rstripLine hmem)
    · subst h1; simp
  have hDr : ∀ l ∈ dropTrailEmpty ((splitLines s).map rstripLine), rstripLine l = l := by
    intro l hl
    rcases mem_dropTrailEmpty hl with h1 | h1
    · rcases List.mem_map.mp h1 with ⟨l0, _, rfl⟩
      exact rstripLine_idem l0
    · subst h1; rfl
  rw [hD, normalizeMarkdown_as_join _ (hD ▸ hn)]
  rw [splitLines_joinLines _ (dropTrailEmpty_ne_nil _) hDnl]
  rw [show (dropTrailEmpty ((splitLines s).map rstripLine)).map rstripLine =
        dropTrailEmpty ((splitLines s).map rstripLine) from by
      rw [List.map_congr_left hDr]; simp]
  rw [dropTrailEmpty_idem]

theorem normalize_idempotent_crfree_witness :
    ('\r' ∉ "a \n\n".toList) ∧
      normalizeMarkdown (normalizeMarkdown "a \n\n".toList) =
        normalizeMarkdown "a \n\n".toList :=
  ⟨by decide, normalize_idempotent_crfree _ (by decide)⟩

/-- C5 (counterexample).  A single-character mutation outside the
substituted spans need not be flagged with a `firstDiffIndex` at or
before the mutation: with the empty map, original `"a\r\nb"` and current
`"a\n\nb"` (the character at index 1 replaced, `'\r'` by `'\n'`), the
verifier fails with `firstDiffIndex = 2`, strictly after the mutation
position 1 (in both raw and normalized coordinates, since normalization
erases the CR). -/
theorem verifier_completeness_counterexample :
    "a\r\nb".toList.take 1 = "a\n\nb".toList.take 1 ∧
    "a\r\nb".toList.drop 2 = "a\n\nb".toList.drop 2 ∧
    "a\r\nb".toList.length = "a\n\nb".toList.length ∧
    (verifyOnlyUrlChanges "a\r\nb".toList "a\n\nb".toList []).ok = false ∧
    (verifyOnlyUrlChanges "a\r\nb".toList "a\n\nb".toList []).firstDiffIndex = some 2 ∧
    ¬(2 ≤ 1) := by
  decide

theorem expandCRLF_eq_nil {s : List Char} (h : expandCRLF s = []) : s = [] := by
  cases s with
  | nil => rfl
  | cons c r =>
    by_cases hc : c = '\n' <;> simp [expandCRLF, hc] at h

theorem stripCRLF_expandCRLF {s : List Char} (h : '\r' ∉ s) :
    stripCRLF (expandCRLF s) = s := by
  induction s with
  | nil => rfl
  | cons c r ih =>
    have hc : c ≠ '\r' := fun hx => h (hx ▸ List.mem_cons_self _ _)
    have hr : '\r' ∉ r := fun hx => h (List.mem_cons_of_mem _ hx)
    by_cases hnl : c = '\n'
    · subst hnl
      rw [show expandCRLF ('\n' :: r) = '\r' :: '\n' :: expandCRLF r from by
          rw [expandCRLF, if_pos rfl]]
      rw [stripCRLF, if_pos ⟨rfl, rfl⟩, ih hr]
    · rw [show expandCRLF (c :: r) = c :: expandCRLF r from by rw [expandCRLF, if_neg hnl]]
      cases he : expandCRLF r with
      | nil =>
        rw [expandCRLF_eq_nil he]
        rfl
      | cons d rest =>
        rw [stripCRLF, if_neg (by simp [hc]), ← he, ih hr]

theorem consHead_append (c : Char) (xs ys : List (List Char)) (h : xs ≠ []) :
    consHead c (xs ++ ys) = consHead c xs ++ ys := by
  cases xs with
  | nil => exact absurd rfl h
  | cons x xs' => rfl

theorem splitLines_glue (x y : List Char) :
    splitLines (x ++ '\n' :: y) = splitLines x ++ splitLines y := by
  induction x with
  | nil =>
    rw [List.nil_append, show splitLines ('\n' :: y) = [] :: splitLines y from by
      rw [splitLines, if_pos rfl]]
    rfl
  | cons c x' ih =>
    by_cases hc : c = '\n'
    · subst hc
      rw [List.cons_append,
        show splitLines ('\n' :: (x' ++ '\n' :: y)) = [] :: splitLines (x' ++ '\n' :: y) from by
          rw [splitLines, if_pos rfl],
        show splitLines ('\n' :: x') = [] :: splitLines x' from by rw [splitLines, if_pos rfl],
        ih]
      rfl
    · rw [List.cons_append, splitLines, if_neg hc, ih,
        consHead_append _ _ _ (splitLines_ne_nil x'), splitLines, if_neg hc]

theorem modLast_cons (f : List Char → List Char) (l : List Char) (ls : List (List Char))
    (h : ls ≠ []) : modLast f (l :: ls) = l :: modLast f ls := by
  cases ls with
  | nil => exact absurd rfl h
  | cons x xs => rfl

theorem consHead_modLast (c : Char) (w : List Char) (ls : List (List Char)) (h : ls ≠ []) :
    consHead c (modLast (· ++ w) ls) = modLast (· ++ w) (consHead c ls) := by
  cases ls with
  | nil => exact absurd rfl h
  | cons l ls' =>
    cases ls' with
    | nil => rfl
    | cons l2 ls2 => rfl

theorem splitLines_append_no_nl (u w : List Char) (hw : '\n' ∉ w) :
    splitLines (u ++ w) = modLast (· ++ w) (splitLines u) := by
  induction u with
  | nil =>
    rw [List.nil_append, splitLines_no_nl_single hw]
    rfl
  | cons c u' ih =>
    by_cases hc : c = '\n'
    · subst hc
      rw [List.cons_append,
        show splitLines ('\n' :: (u' ++ w)) = [] :: splitLines (u' ++ w) from by
          rw [splitLines, if_pos rfl],
        show splitLines ('\n' :: u') = [] :: splitLines u' from by rw [splitLines, if_pos rfl],
        ih, modLast_cons _ _ _ (splitLines_ne_nil u')]
    · rw [List.cons_append, splitLines, if_neg hc, ih,
        consHead_modLast _ _ _ (splitLines_ne_nil u'), splitLines, if_neg hc]

theorem map_rstrip_modLast (w : List Char) (hw : ∀ c ∈ w, isWsTab c = true)
    (ls : List (List Char)) :
    (modLast (· ++ w) ls).map rstripLine = ls.map rstripLine := by
  induction ls with
  | nil => rfl
  | cons l ls' ih =>
    cases ls' with
    | nil =>
      simp only [modLast, List.map_cons, List.map_nil]
      rw [rstripLine_append_ws _ _ hw]
    | cons l2 ls2 =>
      rw [modLast_cons _ _ _ (by simp), List.map_cons, List.map_cons, ih]

theorem norm_append_junk {s : List Char} (hs : '\r' ∉ s) (t : List Char)
    (ht : ∀ c ∈ t, c = ' ' ∨ c = '\t' ∨ c = '\n') :
    normalizeMarkdown (s ++ t) = normalizeMarkdown s := by
  induction t using List.reverseRecOn with
  | nil => simp
  | append_singleton t' c ih =>
    have hc := ht c (List.mem_append.mpr (Or.inr (List.mem_singleton.mpr rfl)))
    have ht' : ∀ x ∈ t', x = ' ' ∨ x = '\t' ∨ x = '\n' :=
      fun x hx => ht x (List.mem_append.mpr (Or.inl hx))
    have hst' : '\r' ∉ s ++ t' := by
      intro hx
      rcases List.mem_append.mp hx with h1 | h1
      · exact hs h1
      · rcases ht' _ h1 with h2 | h2 | h2 <;> simp at h2
    rw [← List.append_assoc]
    have hone : normalizeMarkdown ((s ++ t') ++ [c]) = normalizeMarkdown (s ++ t') := by
      rcases hc with h1 | h1 | h1
      · -- trailing space
        subst h1
        rw [normalizeMarkdown_as_join _ (by
            intro hx
            rcases List.mem_append.mp hx with h2 | h2
            · exact hst' h2
            · simp at h2),
          normalizeMarkdown_as_join _ hst',
          splitLines_append_no_nl _ _ (by simp),
          map_rstrip_modLast _ (by intro x hx; simp at hx; simp [hx, isWsTab])]
      · -- trailing tab
        subst h1
        rw [normalizeMarkdown_as_join _ (by
            intro hx
            rcases List.mem_append.mp hx with h2 | h2
            · exact hst' h2
            · simp at h2),
          normalizeMarkdown_as_join _ hst',
          splitLines_append_no_nl _ _ (by simp),
          map_rstrip_modLast _ (by intro x hx; simp at hx; simp [hx, isWsTab])]
      · -- trailing newline
        subst h1
        rw [normalizeMarkdown_as_join _ (by
            intro hx
            rcases List.mem_append.mp hx with h2 | h2
            · exact hst' h2
            · simp at h2),
          normalizeMarkdown_as_join _ hst']
        rw [show (s ++ t') ++ ['\n'] = (s ++ t') ++ '\n' :: ([] : List Char) from by simp,
          splitLines_glue]
        rw [show splitLines ([] : List Char) = [[]] from rfl]
        rw [List.map_append]
        rw [show ([[]] : List (List Char)).map rstripLine = [[]] from rfl]
        rw [dropTrailEmpty_snoc_nil]
    rw [hone, ih ht']

theorem norm_insert_trailing_ws (u w v : List Char) (hu : '\r' ∉ u) (hv : '\r' ∉ v)
    (hw : ∀ c ∈ w, isWsTab c = true) :
    normalizeMarkdown (u ++ w ++ '\n' :: v) = normalizeMarkdown (u ++ '\n' :: v) := by
  have hwr : '\r' ∉ w := by
    intro hx
    have := hw _ hx
    simp [isWsTab] at this
  have h1 : '\r' ∉ u ++ w ++ '\n' :: v := by
    intro hx
    rcases List.mem_append.mp hx with h2 | h2
    · rcases List.mem_append.mp h2 with h3 | h3
      · exact hu h3
      · exact hwr h3
    · rcases List.mem_cons.mp h2 with h3 | h3
      · simp at h3
      · exact hv h3
  have h2 : '\r' ∉ u ++ '\n' :: v := by
    intro hx
    rcases List.mem_append.mp hx with h3 | h3
    · exact hu h3
    · rcases List.mem_cons.mp h3 with h4 | h4
      · simp at h4
      · exact hv h4
  rw [normalizeMarkdown_as_join _ h1, normalizeMarkdown_as_join _ h2]
  have hwnl : '\n' ∉ w := by
    intro hx
    have := hw _ hx
    simp [isWsTab] at this
  rw [show u ++ w ++ '\n' :: v = (u ++ w) ++ '\n' :: v from by simp, splitLines_glue,
    splitLines_glue, splitLines_append_no_nl _ _ hwnl, List.map_append, List.map_append,
    map_rstrip_modLast _ hw]

/-! ### Kept-character lemmas (content changes survive normalization) -/

theorem filter_dropWhile (p q : Char → Bool) (l : List Char)
    (h : ∀ x, q x = true → p x = false) :
    (l.dropWhile q).filter p = l.filter p := by
  induction l with
  | nil => rfl
  | cons c r ih =>
    by_cases hc : q c = true
    · rw [List.dropWhile_cons, if_pos hc, ih, List.filter_cons, if_neg (by simp [h c hc])]
    · rw [List.dropWhile_cons, if_neg hc]

theorem filter_keepCh_rstripLine (l : List Char) :
    (rstripLine l).filter keepCh = l.filter keepCh := by
  unfold rstripLine
  rw [List.filter_reverse,
    filter_dropWhile _ _ _ (by
      intro x hx
      simp [isWsTab] at hx
      rcases hx with h | h <;> simp [keepCh, h]),
    List.filter_reverse, List.reverse_reverse]

theorem filter_keepCh_stripTrailNL (s : List Char) :
    (stripTrailNL s).filter keepCh = s.filter keepCh := by
  unfold stripTrailNL
  rw [List.filter_reverse,
    filter_dropWhile _ _ _ (by
      intro x hx
      simp at hx
      simp [keepCh, hx]),
    List.filter_reverse, List.reverse_reverse]

theorem filter_keepCh_stripCRLF (s : List Char) :
    (stripCRLF s).filter keepCh = s.filter keepCh := by
  induction s using stripCRLF.induct with
  | case1 => rfl
  | case2 d => rfl
  | case3 a b rest hab ih =>
    rcases hab with ⟨ha, hb⟩
    subst ha; subst hb
    rw [stripCRLF, if_pos ⟨rfl, rfl⟩]
    rw [List.filter_cons, List.filter_cons, List.filter_cons]
    simp only [show keepCh '\n' = false from rfl, show keepCh '\r' = false from rfl]
    simpa using ih
  | case4 a b rest hab ih =>
    rw [stripCRLF, if_neg hab]
    rw [List.filter_cons, List.filter_cons]
    by_cases ha : keepCh a = true <;> simp [ha, ih]

theorem filter_keepCh_joinLines (ls : List (List Char)) :
    (joinLines ls).filter keepCh = (ls.map (·.filter keepCh)).flatten := by
  induction ls with
  | nil => rfl
  | cons l ls' ih =>
    cases ls' with
    | nil => simp [joinLines, joinWith]
    | cons l2 ls2 =>
      have hstep : joinLines (l :: l2 :: ls2) = l ++ '\n' :: joinLines (l2 :: ls2) := by
        simp [joinLines, joinWith]
      rw [hstep, List.filter_append, List.filter_cons]
      simp only [show keepCh '\n' = false from rfl]
      rw [List.map_cons, List.flatten_cons]
      simp only [Bool.false_eq_true, if_false]
      rw [ih]

theorem filter_keepCh_normalizeMarkdown (s : List Char) :
    (normalizeMarkdown s).filter keepCh = s.filter keepCh := by
  unfold normalizeMarkdown
  rw [filter_keepCh_stripTrailNL, filter_keepCh_joinLines]
  have h1 : ((splitLines (stripCRLF s)).map rstripLine).map (·.filter keepCh) =
      (splitLines (stripCRLF s)).map (·.filter keepCh) := by
    rw [List.map_map]
    exact List.map_congr_left (fun l _ => filter_keepCh_rstripLine l)
  rw [h1, ← filter_keepCh_joinLines, joinLines_splitLines, filter_keepCh_stripCRLF]

theorem norm_ne_of_kept_change (u v : List Char) {c d : Char} (hcd : c ≠ d)
    (hc : keepCh c = true) (hd : keepCh d = true) :
    normalizeMarkdown (u ++ c :: v) ≠ normalizeMarkdown (u ++ d :: v) := by
  intro heq
  have h1 := filter_keepCh_normalizeMarkdown (u ++ c :: v)
  have h2 := filter_keepCh_normalizeMarkdown (u ++ d :: v)
  rw [heq, h2] at h1
  rw [List.filter_append, List.filter_append, List.filter_cons, List.filter_cons,
    if_pos hc, if_pos hd] at h1
  have h3 := List.append_cancel_left h1
  exact hcd ((List.cons_eq_cons.mp h3).1.symm)

/-- The verifier's verdict is exactly equality of the normalized bodies. -/
theorem verify_ok_eq (doc current : List Char) (m : List (List Char × List Char)) :
    (verifyOnlyUrlChanges doc current m).ok =
      decide (normalizeMarkdown (replaceImageUrls doc m) = normalizeMarkdown current) := by
  unfold verifyOnlyUrlChanges replaceImageUrls
  by_cases h : normalizeMarkdown
      (m.foldl (fun out e => splitJoin e.1 e.2 out) doc) = normalizeMarkdown current
  · rw [if_pos h]
    simp [h]
  · rw [if_neg h]
    simp [h]

/-- C5 (amended).  A mutation of the substituted document is flagged
exactly when it survives normalization: the verifier returns `ok = true`
precisely when the normalized current body equals the normalized
expected body — so mutations erased by normalization (e.g. an added
trailing space) leave `ok = true` — and on every failure
`firstDiffIndex` is the length of the longest common prefix of the two
normalized texts, which can lie after the mutation position when
normalization deletes characters around it. -/
theorem verifier_detects_surviving_changes (doc current : List Char)
    (m : List (List Char × List Char)) :
    ((verifyOnlyUrlChanges doc current m).ok = true ↔
      normalizeMarkdown current = normalizeMarkdown (replaceImageUrls doc m)) ∧
    ((verifyOnlyUrlChanges doc current m).ok = false →
      (verifyOnlyUrlChanges doc current m).firstDiffIndex =
        some (firstDiffIdx (normalizeMarkdown (replaceImageUrls doc m))
          (normalizeMarkdown current))) := by
  constructor
  · rw [verify_ok_eq]
    constructor
    · intro hd
      exact (of_decide_eq_true hd).symm
    · intro he
      exact decide_eq_true he.symm
  · intro hfalse
    have hne : ¬(normalizeMarkdown (replaceImageUrls doc m) = normalizeMarkdown current) := by
      rw [verify_ok_eq] at hfalse
      exact of_decide_eq_false hfalse
    unfold verifyOnlyUrlChanges
    unfold replaceImageUrls at hne
    rw [if_neg hne]
    rfl

theorem verifier_detects_surviving_changes_witness :
    (verifyOnlyUrlChanges "a".toList "a ".toList []).ok = true ∧
    (verifyOnlyUrlChanges "a".toList "b".toList []).ok = false ∧
    (verifyOnlyUrlChanges "a".toList "b".toList []).firstDiffIndex = some 0 := by
  refine ⟨?_, by decide, ?_⟩
  · exact (verifier_detects_surviving_changes "a".toList "a ".toList []).1.mpr (by decide)
  · rw [(verifier_detects_surviving_changes "a".toList "b".toList []).2 (by decide)]
    decide

theorem norm_expandCRLF {s : List Char} (h : '\r' ∉ s) :
    normalizeMarkdown (expandCRLF s) = normalizeMarkdown s := by
  unfold normalizeMarkdown
  rw [stripCRLF_expandCRLF h, stripCRLF_of_no_cr h]

/-- C6.  Normalization tolerance boundary.  With `e` the expected
substituted body: (1) rewriting `e` into CRLF line endings is accepted;
(2) a CRLF-style `e` compared against its LF form is accepted;
(3) appending trailing whitespace or blank lines at end-of-document is
accepted; (4) inserting trailing spaces/tabs before a newline is
accepted; (5) changing a letter's case or a word's content (any
replacement of a non-whitespace character by a different non-whitespace
character) is rejected. -/
theorem normalization_tolerance_boundary :
    (∀ doc m, '\r' ∉ replaceImageUrls doc m →
      (verifyOnlyUrlChanges doc (expandCRLF (replaceImageUrls doc m)) m).ok = true) ∧
    (∀ doc m s, replaceImageUrls doc m = expandCRLF s → '\r' ∉ s →
      (verifyOnlyUrlChanges doc s m).ok = true) ∧
    (∀ doc m t, '\r' ∉ replaceImageUrls doc m →
      (∀ c ∈ t, c = ' ' ∨ c = '\t' ∨ c = '\n') →
      (verifyOnlyUrlChanges doc (replaceImageUrls doc m ++ t) m).ok = true) ∧
    (∀ doc m u w v, replaceImageUrls doc m = u ++ '\n' :: v → '\r' ∉ u → '\r' ∉ v →
      (∀ c ∈ w, isWsTab c = true) →
      (verifyOnlyUrlChanges doc (u ++ w ++ '\n' :: v) m).ok = true) ∧
    (∀ doc m u v (c d : Char), replaceImageUrls doc m = u ++ c :: v → c ≠ d →
      keepCh c = true → keepCh d = true →
      (verifyOnlyUrlChanges doc (u ++ d :: v) m).ok = false) := by
  refine ⟨?_, ?_, ?_, ?_, ?_⟩
  · intro doc m h
    rw [verify_ok_eq, norm_expandCRLF h]
    simp
  · intro doc m s he h
    rw [verify_ok_eq, he, norm_expandCRLF h]
    simp
  · intro doc m t h ht
    rw [verify_ok_eq, norm_append_junk h t ht]
    simp
  · intro doc m u w v he hu hv hw
    rw [verify_ok_eq, he, norm_insert_trailing_ws u w v hu hv hw]
    simp
  · intro doc m u v c d he hcd hc hd
    rw [verify_ok_eq, he]
    simp only [decide_eq_false_iff_not]
    exact norm_ne_of_kept_change u v hcd hc hd

theorem normalization_tolerance_boundary_witness :
    (verifyOnlyUrlChanges "a\nb".toList
      (expandCRLF (replaceImageUrls "a\nb".toList [])) []).ok = true ∧
    (verifyOnlyUrlChanges "a\r\nb".toList "a\nb".toList []).ok = true ∧
    (verifyOnlyUrlChanges "a\nb".toList
      (replaceImageUrls "a\nb".toList [] ++ " \n".toList) []).ok = true ∧
    (verifyOnlyUrlChanges "a\nb".toList
      ("a".toList ++ [' '] ++ '\n' :: "b".toList) []).ok = true ∧
    (verifyOnlyUrlChanges "ab".toList ("a".toList ++ 'B' :: []) []).ok = false :=
  ⟨normalization_tolerance_boundary.1 "a\nb".toList [] (by decide),
   normalization_tolerance_boundary.2.1 "a\r\nb".toList [] "a\nb".toList (by decide) (by decide),
   normalization_tolerance_boundary.2.2.1 "a\nb".toList [] " \n".toList (by decide) (by decide),
   normalization_tolerance_boundary.2.2.2.1 "a\nb".toList [] "a".toList [' '] "b".toList
     (by decide) (by decide) (by decide) (by decide),
   normalization_tolerance_boundary.2.2.2.2 "ab".toList [] "a".toList [] 'b' 'B'
     (by decide) (by decide) (by decide) (by decide)⟩

/-- C1.  Verifier soundness: for every document and every ordered URL
map, verifying the original against the document with the substitution
applied accepts with reason `only_url_changes`. -/
theorem verifier_soundness (doc : List Char) (m : List (List Char × List Char)) :
    verifyOnlyUrlChanges doc (replaceImageUrls doc m) m =
      ⟨true, "only_url_changes".toList, none, none, none, none, none⟩ := by
  unfold verifyOnlyUrlChanges replaceImageUrls
  simp

/-! ### Optimizer theorems -/

theorem findBestGo_stores (render : Nat → Nat) (target : Nat) :
    ∀ fuel low high best,
      (∀ p : Nat × Nat, best = some p → p.2 = render p.1 ∧ p.2 ≤ target) →
      ∀ p : Nat × Nat, findBestGo render target fuel low high best = some p →
        p.2 = render p.1 ∧ p.2 ≤ target := by
  intro fuel
  induction fuel with
  | zero =>
    intro low high best hb p hp
    exact hb p hp
  | succ fuel ih =>
    intro low high best hb p hp
    rw [findBestGo] at hp
    by_cases hlh : low ≤ high
    · rw [if_pos hlh] at hp
      by_cases hfit : render ((low + high + 1) / 2) ≤ target
      · rw [if_pos hfit] at hp
        refine ih _ _ _ ?_ p hp
        intro p' hp'
        rw [Option.some.injEq] at hp'
        subst hp'
        exact ⟨rfl, hfit⟩
      · rw [if_neg hfit] at hp
        exact ih _ _ _ hb p hp
    · rw [if_neg hlh] at hp
      exact hb p hp

theorem findBestProbesGo_le (render : Nat → Nat) (target : Nat) :
    ∀ fuel low high, findBestProbesGo render target fuel low high ≤ fuel := by
  intro fuel
  induction fuel with
  | zero => intro low high; simp [findBestProbesGo]
  | succ fuel ih =>
    intro low high
    rw [findBestProbesGo]
    by_cases hlh : low ≤ high
    · rw [if_pos hlh]
      by_cases hfit : render ((low + high + 1) / 2) ≤ target
      · rw [if_pos hfit]
        exact Nat.succ_le_succ (ih _ _)
      · rw [if_neg hfit]
        exact Nat.succ_le_succ (ih _ _)
    · rw [if_neg hlh]
      exact Nat.zero_le _

/-- Main invariant of the bounded binary search: with a monotone
renderer and enough fuel (interval width below `2^fuel`), the loop
returns the greatest fitting quality in the domain, or `none` when no
quality fits. -/
theorem findBestGo_invariant (render : Nat → Nat) (target qMin qMax : Nat)
    (mono : ∀ a b, a ≤ b → render a ≤ render b) :
    ∀ fuel low high (best : Option (Nat × Nat)),
      qMin ≤ low → 1 ≤ low → high ≤ qMax →
      high + 2 ≤ low + 2 ^ fuel →
      (∀ b : Nat × Nat, best = some b →
        render b.1 ≤ target ∧ b.2 = render b.1 ∧ qMin ≤ b.1 ∧ b.1 ≤ qMax ∧ low = b.1 + 1) →
      (best = none → low = qMin) →
      (∀ q', qMin ≤ q' → q' ≤ qMax → render q' ≤ target →
        (q' ≤ high ∨ ∃ b : Nat × Nat, best = some b ∧ q' ≤ b.1)) →
      ((∀ p : Nat × Nat, findBestGo render target fuel low high best = some p →
          render p.1 ≤ target ∧ p.2 = render p.1 ∧ qMin ≤ p.1 ∧ p.1 ≤ qMax ∧
          (∀ q', qMin ≤ q' → q' ≤ qMax → render q' ≤ target → q' ≤ p.1)) ∧
        (findBestGo render target fuel low high best = none →
          ∀ q', qMin ≤ q' → q' ≤ qMax → ¬render q' ≤ target)) := by
  intro fuel
  induction fuel with
  | zero =>
    intro low high best hql hlow1 hhq hfuel hbest hnone hcover
    have hlt : high < low := by
      have : (2 : Nat) ^ 0 = 1 := by norm_num
      omega
    constructor
    · intro p hp
      rw [show findBestGo render target 0 low high best = best from rfl] at hp
      rcases hbest p hp with ⟨h1, h2, h3, h4, h5⟩
      refine ⟨h1, h2, h3, h4, ?_⟩
      intro q' hq1 hq2 hq3
      rcases hcover q' hq1 hq2 hq3 with h6 | ⟨b, hb1, hb2⟩
      · omega
      · rw [hp] at hb1
        rw [Option.some.injEq] at hb1
        subst hb1
        exact hb2
    · intro hp q' hq1 hq2 hq3
      rw [show findBestGo render target 0 low high best = best from rfl] at hp
      rcases hcover q' hq1 hq2 hq3 with h6 | ⟨b, hb1, hb2⟩
      · have := hnone hp
        omega
      · rw [hp] at hb1
        exact Option.noConfusion hb1
  | succ fuel ih =>
    intro low high best hql hlow1 hhq hfuel hbest hnone hcover
    by_cases hlh : low ≤ high
    · have hdm := Nat.div_add_mod (low + high + 1) 2
      have hmod : (low + high + 1) % 2 < 2 := Nat.mod_lt _ (by omega)
      have hqlow : low ≤ (low + high + 1) / 2 := by omega
      have hqhigh : (low + high + 1) / 2 ≤ high := by omega
      rw [findBestGo, if_pos hlh]
      by_cases hfit : render ((low + high + 1) / 2) ≤ target
      · rw [if_pos hfit]
        refine ih ((low + high + 1) / 2 + 1) high
          (some ((low + high + 1) / 2, render ((low + high + 1) / 2)))
          (by omega) (by omega) hhq ?_ ?_ ?_ ?_
        · rw [pow_succ] at hfuel
          omega
        · intro b hb
          rw [Option.some.injEq] at hb
          subst hb
          exact ⟨hfit, rfl, by omega, by omega, rfl⟩
        · intro hb
          exact Option.noConfusion hb
        · intro q' hq1 hq2 hq3
          rcases hcover q' hq1 hq2 hq3 with h6 | ⟨b, hb1, hb2⟩
          · exact Or.inl h6
          · rcases hbest b hb1 with ⟨_, _, _, _, h5⟩
            exact Or.inr ⟨_, rfl, by omega⟩
      · rw [if_neg hfit]
        refine ih low ((low + high + 1) / 2 - 1) best hql hlow1 (by omega) ?_ hbest hnone ?_
        · rw [pow_succ] at hfuel
          omega
        · intro q' hq1 hq2 hq3
          rcases hcover q' hq1 hq2 hq3 with h6 | ⟨b, hb1, hb2⟩
          · left
            by_contra hgt
            push_neg at hgt
            have : (low + high + 1) / 2 ≤ q' := by omega
            exact hfit (le_trans (mono _ _ this) hq3)
          · exact Or.inr ⟨b, hb1, hb2⟩
    · rw [findBestGo, if_neg hlh]
      have hlt : high < low := by omega
      constructor
      · intro p hp
        rcases hbest p hp with ⟨h1, h2, h3, h4, h5⟩
        refine ⟨h1, h2, h3, h4, ?_⟩
        intro q' hq1 hq2 hq3
        rcases hcover q' hq1 hq2 hq3 with h6 | ⟨b, hb1, hb2⟩
        · omega
        · rw [hp] at hb1
          rw [Option.some.injEq] at hb1
          subst hb1
          exact hb2
      · intro hp q' hq1 hq2 hq3
        rcases hcover q' hq1 hq2 hq3 with h6 | ⟨b, hb1, hb2⟩
        · have := hnone hp
          omega
        · rw [hp] at hb1
          exact Option.noConfusion hb1

/-- C4.  Binary-search quality selection: for every encoder monotone
non-decreasing in quality, `findBestUnderTarget` returns the highest
quality in the format's domain ([55,95] JPEG, [40,100] PNG) whose render
fits the budget — together with that render's byte length — or `none`
when no quality fits, and performs at most 9 render probes. -/
theorem binary_search_quality_correct (render : Nat → Nat) (fmt : OutFormat) (target : Nat)
    (mono : ∀ a b, a ≤ b → render a ≤ render b) :
    (∀ q s, findBestUnderTarget render fmt target = some (q, s) →
      s = render q ∧ render q ≤ target ∧ qMinOf fmt ≤ q ∧ q ≤ qMaxOf fmt ∧
      (∀ q', qMinOf fmt ≤ q' → q' ≤ qMaxOf fmt → render q' ≤ target → q' ≤ q)) ∧
    (findBestUnderTarget render fmt target = none →
      ∀ q', qMinOf fmt ≤ q' → q' ≤ qMaxOf fmt → ¬render q' ≤ target) ∧
    findBestProbes render fmt target ≤ 9 := by
  have hfuel : qMaxOf fmt + 2 ≤ qMinOf fmt + 2 ^ 9 := by
    cases fmt <;> decide
  have h := findBestGo_invariant render target (qMinOf fmt) (qMaxOf fmt) mono
    9 (qMinOf fmt) (qMaxOf fmt) none le_rfl (by cases fmt <;> decide) le_rfl hfuel
    (fun b hb => Option.noConfusion hb) (fun _ => rfl)
    (fun q' _ hq2 _ => Or.inl hq2)
  refine ⟨?_, h.2, findBestProbesGo_le render target 9 _ _⟩
  intro q s hq
  rcases h.1 (q, s) hq with ⟨h1, h2, h3, h4, h5⟩
  exact ⟨h2, h1, h3, h4, h5⟩

theorem binary_search_quality_correct_witness :
    (60 : Nat) = (fun q : Nat => q) 60 ∧ (fun q : Nat => q) 60 ≤ 60 ∧
    (55 : Nat) ≤ 60 ∧ (60 : Nat) ≤ 95 ∧
    findBestUnderTarget (fun q : Nat => q) OutFormat.jpeg 60 = some (60, 60) ∧
    findBestProbes (fun q : Nat => q) OutFormat.jpeg 60 ≤ 9 := by
  have h := binary_search_quality_correct (fun q : Nat => q) OutFormat.jpeg 60
    (fun a b hh => hh)
  have heq : findBestUnderTarget (fun q : Nat => q) OutFormat.jpeg 60 = some (60, 60) := by
    decide
  have h2 := h.1 60 60 heq
  exact ⟨h2.1, h2.2.1, h2.2.2.1, h2.2.2.2.1, heq, h.2.2⟩

theorem optimizeLoop_some (R : Nat → Nat → Nat → Nat) (w h target : Nat) (fmt : OutFormat) :
    ∀ L (k : Nat) (res : Nat × Nat), optimizeLoop R w h target fmt L = some (k, res) →
      k ∈ L ∧
      findBestUnderTarget (fun q => R (scaledDim w k) (scaledDim h k) q) fmt target = some res := by
  intro L
  induction L with
  | nil =>
    intro k res hk
    exact Option.noConfusion hk
  | cons k0 ks ih =>
    intro k res hk
    rw [optimizeLoop] at hk
    cases hf : findBestUnderTarget (fun q => R (scaledDim w k0) (scaledDim h k0) q) fmt target with
    | none =>
      rw [hf] at hk
      rcases ih k res hk with ⟨h1, h2⟩
      exact ⟨List.mem_cons_of_mem _ h1, h2⟩
    | some r0 =>
      rw [hf] at hk
      rw [Option.some.injEq, Prod.mk.injEq] at hk
      obtain ⟨rfl, rfl⟩ := hk
      exact ⟨List.mem_cons_self _ _, hf⟩

theorem optimizeLoop_first (R : Nat → Nat → Nat → Nat) (w h target : Nat) (fmt : OutFormat) :
    ∀ L, L.Pairwise (· > ·) →
      ∀ (k : Nat) (res : Nat × Nat), optimizeLoop R w h target fmt L = some (k, res) →
        ∀ k' ∈ L, k < k' →
          findBestUnderTarget (fun q => R (scaledDim w k') (scaledDim h k') q) fmt target = none := by
  intro L
  induction L with
  | nil =>
    intro _ k res hk
    exact Option.noConfusion hk
  | cons k0 ks ih =>
    intro hpw k res hk k' hk' hlt
    have hpw' : ks.Pairwise (· > ·) := (List.pairwise_cons.mp hpw).2
    have hhead : ∀ x ∈ ks, k0 > x := (List.pairwise_cons.mp hpw).1
    rw [optimizeLoop] at hk
    cases hf : findBestUnderTarget (fun q => R (scaledDim w k0) (scaledDim h k0) q) fmt target with
    | none =>
      rw [hf] at hk
      rcases List.mem_cons.mp hk' with h1 | h1
      · subst h1
        exact hf
      · exact ih hpw' k res hk k' h1 hlt
    | some r0 =>
      rw [hf] at hk
      rw [Option.some.injEq, Prod.mk.injEq] at hk
      obtain ⟨rfl, rfl⟩ := hk
      rcases List.mem_cons.mp hk' with h1 | h1
      · omega
      · have := hhead k' h1
        omega

/-- C3 (counterexample).  The fourth scale the optimizer tries is 0.858
(the loop iterates `scale := round3(scale · 0.95)`, and
`0.903 · 0.95 = 0.85785` rounds to 0.858), whereas `0.95³ = 0.857375`
rounded to 3 decimal places is 0.857: the claimed sequence value differs
from the code's at index 3. -/
theorem scale_seq_counterexample :
    scaleSeq.get? 3 = some 858 ∧ claimScale 3 = 857 ∧ (858 : Nat) ≠ 857 := by
  decide

/-- C3 (amended).  The optimizer tries the scales of `scaleSeq`
(1.0, .95, .903, .858, …, .568 in thousandths — produced by iterating
"multiply by 0.95 and round to 3 decimals", not by rounding the exact
powers 0.95ᵏ) in strictly decreasing order, all within [0.55, 1.0]; it
selects the first scale at which a quality fits and never tries a
smaller one afterwards, so of two scales that both admit a fitting
quality the larger is selected. -/
theorem scale_monotonic_preference (R : Nat → Nat → Nat → Nat) (w h target : Nat)
    (fmt : OutFormat) :
    scaleSeq.Pairwise (· > ·) ∧
    (∀ k ∈ scaleSeq, 550 ≤ k ∧ k ≤ 1000) ∧
    (∀ (k : Nat) (res : Nat × Nat),
      optimizeLoop R w h target fmt scaleSeq = some (k, res) →
      k ∈ scaleSeq ∧
      findBestUnderTarget (fun q => R (scaledDim w k) (scaledDim h k) q) fmt target = some res ∧
      (∀ k' ∈ scaleSeq, k < k' →
        findBestUnderTarget (fun q => R (scaledDim w k') (scaledDim h k') q) fmt target = none)) := by
  refine ⟨by decide, by decide, ?_⟩
  intro k res hk
  rcases optimizeLoop_some R w h target fmt scaleSeq k res hk with ⟨h1, h2⟩
  exact ⟨h1, h2, fun k' hk' hlt =>
    optimizeLoop_first R w h target fmt scaleSeq (by decide) k res hk k' hk' hlt⟩

theorem scale_monotonic_preference_witness :
    (1000 : Nat) ∈ scaleSeq ∧
    findBestUnderTarget
      (fun q => (fun _ _ _ => 5 : Nat → Nat → Nat → Nat) (scaledDim 100 1000) (scaledDim 100 1000) q)
      OutFormat.jpeg 10 = some (95, 5) := by
  have h := (scale_monotonic_preference (fun _ _ _ => 5) 100 100 10 OutFormat.jpeg).2.2
    1000 (95, 5) (by decide)
  exact ⟨h.1, h.2.1⟩

/-- C2.  Budget property: when the optimizer completes without the
fallback (a scale was selected), the emitted size is within the budget;
when the fallback is taken, the output is a single render at the 0.55
scale floor with the fixed conservative quality (60 JPEG / 70 PNG), and
— provided the encoder never produces an empty encoding — its byte
length is positive, though it may exceed the budget. -/
theorem optimizer_budget_property (R : Nat → Nat → Nat → Nat) (w h target : Nat)
    (fmt : OutFormat) :
    (∀ k q s, optimizeImageToTargetBytes R w h target fmt = .selected k q s → s ≤ target) ∧
    (∀ wf hf q s, optimizeImageToTargetBytes R w h target fmt = .fallbackOut wf hf q s →
      wf = scaledDim w 550 ∧ hf = scaledDim h 550 ∧ q = fallbackQuality fmt ∧
      s = R (scaledDim w 550) (scaledDim h 550) (fallbackQuality fmt) ∧
      ((∀ a b c, 0 < R a b c) → 0 < s)) := by
  constructor
  · intro k q s hsel
    unfold optimizeImageToTargetBytes at hsel
    cases hloop : optimizeLoop R w h target fmt scaleSeq with
    | none =>
      rw [hloop] at hsel
      exact OptimizeOutcome.noConfusion hsel
    | some kr =>
      rcases kr with ⟨k0, q0, s0⟩
      rw [hloop] at hsel
      have hk : k0 = k ∧ q0 = q ∧ s0 = s := by
        cases hsel
        exact ⟨rfl, rfl, rfl⟩
      rcases hk with ⟨rfl, rfl, rfl⟩
      rcases optimizeLoop_some R w h target fmt scaleSeq k0 (q0, s0) hloop with ⟨_, hfb⟩
      have := findBestGo_stores (fun q => R (scaledDim w k0) (scaledDim h k0) q) target
        9 (qMinOf fmt) (qMaxOf fmt) none (fun p hp => Option.noConfusion hp) (q0, s0) hfb
      exact this.2
  · intro wf hf q s hfb
    unfold optimizeImageToTargetBytes at hfb
    cases hloop : optimizeLoop R w h target fmt scaleSeq with
    | some kr =>
      rcases kr with ⟨k0, q0, s0⟩
      rw [hloop] at hfb
      exact OptimizeOutcome.noConfusion hfb
    | none =>
      rw [hloop] at hfb
      have hk : wf = scaledDim w 550 ∧ hf = scaledDim h 550 ∧ q = fallbackQuality fmt ∧
          s = R (scaledDim w 550) (scaledDim h 550) (fallbackQuality fmt) := by
        cases hfb
        exact ⟨rfl, rfl, rfl, rfl⟩
      rcases hk with ⟨h1, h2, h3, h4⟩
      exact ⟨h1, h2, h3, h4, fun hpos => h4 ▸ hpos _ _ _⟩

theorem optimizer_budget_property_witness :
    optimizeImageToTargetBytes (fun _ _ _ => 5) 100 100 10 OutFormat.jpeg =
      .selected 1000 95 5 ∧ (5 : Nat) ≤ 10 ∧
    optimizeImageToTargetBytes (fun _ _ _ => 1000) 100 100 10 OutFormat.jpeg =
      .fallbackOut 55 55 60 1000 ∧ (0 : Nat) < 1000 := by
  have hsel : optimizeImageToTargetBytes (fun _ _ _ => 5) 100 100 10 OutFormat.jpeg =
      .selected 1000 95 5 := by decide
  have hfb : optimizeImageToTargetBytes (fun _ _ _ => 1000) 100 100 10 OutFormat.jpeg =
      .fallbackOut 55 55 60 1000 := by decide
  refine ⟨hsel, ?_, hfb, ?_⟩
  · exact (optimizer_budget_property (fun _ _ _ => 5) 100 100 10 OutFormat.jpeg).1
      1000 95 5 hsel
  · exact ((optimizer_budget_property (fun _ _ _ => 1000) 100 100 10 OutFormat.jpeg).2
      55 55 60 1000 hfb).2.2.2.2 (fun _ _ _ => by decide)

/-! ### Download classification theorems -/

theorem mem_filterMap_fst {f : (List Char × DlOutcome) → Option (List Char)}
    (hf : ∀ e u, f e = some u → u = e.1) {u : List Char}
    {es : List (List Char × DlOutcome)} (h : u ∈ es.filterMap f) :
    u ∈ es.map Prod.fst := by
  rcases List.mem_filterMap.mp h with ⟨e, he, hfe⟩
  rcases hf e u hfe with rfl
  exact List.mem_map.mpr ⟨e, he, rfl⟩

theorem runSelectAll_ok (target : Nat) :
    ∀ es : List (List Char × DlOutcome),
      (∀ u st, (u, DlOutcome.failure st) ∈ es → st = some 403) →
      runSelectAll target es = .ok (pF target es, skF es) := by
  intro es
  induction es with
  | nil => intro _; rfl
  | cons e rest ih =>
    intro hall
    rcases e with ⟨u, d⟩
    have hrest : ∀ u st, (u, DlOutcome.failure st) ∈ rest → st = some 403 :=
      fun u' st' h' => hall u' st' (List.mem_cons_of_mem _ h')
    cases d with
    | failure st =>
      have h403 : st = some 403 := hall u st (List.mem_cons_self _ _)
      subst h403
      rw [runSelectAll, if_pos (by rw [dlErrCode, if_pos rfl]), ih hrest]
      simp [pF, skF, List.filterMap_cons]
    | success n =>
      by_cases hn : n ≤ target
      · rw [runSelectAll, if_pos hn, ih hrest]
        simp only [pF, skF, List.filterMap_cons]
        rw [if_neg (show ¬target < n by omega)]
      · rw [runSelectAll, if_neg hn, ih hrest]
        simp only [pF, skF, List.filterMap_cons]
        rw [if_pos (show target < n by omega)]

theorem pF_fun_fst (target : Nat) : ∀ (e : List Char × DlOutcome) (u : List Char),
    (match e.2 with
      | DlOutcome.success n => if target < n then some e.1 else none
      | DlOutcome.failure _ => none) = some u → u = e.1 := by
  rintro ⟨u0, d⟩ u he
  cases d with
  | success n =>
    change (if target < n then some u0 else none) = some u at he
    by_cases ht : target < n
    · rw [if_pos ht] at he
      exact (Option.some.inj he).symm
    · rw [if_neg ht] at he
      exact Option.noConfusion he
  | failure st =>
    change none = some u at he
    exact Option.noConfusion he

theorem skF_fun_fst : ∀ (e : List Char × DlOutcome) (u : List Char),
    (match e.2 with
      | DlOutcome.failure _ => some e.1
      | DlOutcome.success _ => none) = some u → u = e.1 := by
  rintro ⟨u0, d⟩ u he
  cases d with
  | failure st =>
    change some u0 = some u at he
    exact (Option.some.inj he).symm
  | success n =>
    change none = some u at he
    exact Option.noConfusion he

theorem skF_cons_failure (u0 : List Char) (st : Option Nat)
    (rest : List (List Char × DlOutcome)) :
    skF ((u0, DlOutcome.failure st) :: rest) = u0 :: skF rest := rfl

theorem skF_cons_success (u0 : List Char) (n : Nat) (rest : List (List Char × DlOutcome)) :
    skF ((u0, DlOutcome.success n) :: rest) = skF rest := rfl

theorem pF_cons_failure (target : Nat) (u0 : List Char) (st : Option Nat)
    (rest : List (List Char × DlOutcome)) :
    pF target ((u0, DlOutcome.failure st) :: rest) = pF target rest := rfl

theorem pF_cons_success (target : Nat) (u0 : List Char) (n : Nat)
    (rest : List (List Char × DlOutcome)) :
    pF target ((u0, DlOutcome.success n) :: rest) =
      if target < n then u0 :: pF target rest else pF target rest := by
  by_cases ht : target < n
  · simp only [pF, List.filterMap_cons]
    rw [if_pos ht, if_pos ht]
  · simp only [pF, List.filterMap_cons]
    rw [if_neg ht, if_neg ht]

theorem skF_pF_disjoint (target : Nat) :
    ∀ es : List (List Char × DlOutcome), (es.map Prod.fst).Nodup →
      ∀ u ∈ skF es, u ∉ pF target es := by
  intro es
  induction es with
  | nil => intro _ u hu; simp [skF] at hu
  | cons e rest ih =>
    intro hnd u hu hp
    rcases e with ⟨u0, d⟩
    rw [List.map_cons, List.nodup_cons] at hnd
    cases d with
    | failure st =>
      rw [skF_cons_failure] at hu
      rw [pF_cons_failure] at hp
      rcases List.mem_cons.mp hu with h1 | h1
      · subst h1
        exact hnd.1 (mem_filterMap_fst (fun e' u' => pF_fun_fst target e' u') hp)
      · exact ih hnd.2 u h1 hp
    | success n =>
      rw [skF_cons_success] at hu
      rw [pF_cons_success] at hp
      by_cases ht : target < n
      · rw [if_pos ht] at hp
        rcases List.mem_cons.mp hp with h1 | h1
        · subst h1
          exact hnd.1 (mem_filterMap_fst (fun e' u' => skF_fun_fst e' u') hu)
        · exact ih hnd.2 u hu h1
      · rw [if_neg ht] at hp
        exact ih hnd.2 u hu hp

theorem runSelectAll_aborts (target : Nat) :
    ∀ es : List (List Char × DlOutcome),
      (∃ u st, (u, DlOutcome.failure st) ∈ es ∧ st ≠ some 403) →
      ∃ e, runSelectAll target es = .error e := by
  intro es
  induction es with
  | nil =>
    intro ⟨u, st, hmem, _⟩
    simp at hmem
  | cons e rest ih =>
    intro ⟨u, st, hmem, hne⟩
    rcases e with ⟨u0, d⟩
    cases d with
    | failure st0 =>
      by_cases h0 : st0 = some 403
      · subst h0
        have hmem' : (u, DlOutcome.failure st) ∈ rest := by
          rcases List.mem_cons.mp hmem with h1 | h1
          · rw [Prod.mk.injEq] at h1
            rcases h1 with ⟨_, h2⟩
            exact absurd (DlOutcome.failure.injEq .. ▸ h2 : st = some 403) hne
          · exact h1
        rcases ih ⟨u, st, hmem', hne⟩ with ⟨e, he⟩
        rw [runSelectAll, if_pos (by rw [dlErrCode, if_pos rfl]), he]
        exact ⟨e, rfl⟩
      · refine ⟨u0, ?_⟩
        rw [runSelectAll, if_neg ?_]
        rw [dlErrCode, if_neg h0]
        decide
    | success n =>
      have hmem' : (u, DlOutcome.failure st) ∈ rest := by
        rcases List.mem_cons.mp hmem with h1 | h1
        · rw [Prod.mk.injEq] at h1
          exact absurd h1.2 (by simp)
        · exact h1
      rcases ih ⟨u, st, hmem', hne⟩ with ⟨e, he⟩
      by_cases hn : n ≤ target
      · rw [runSelectAll, if_pos hn, he]
        exact ⟨e, rfl⟩
      · rw [runSelectAll, if_neg hn, he]
        exact ⟨e, rfl⟩

/-- C9.  Download error classification and tolerance: the downloader
raises `ACCESS_DENIED` exactly on HTTP 403 and `DOWNLOAD_FAILED`
otherwise; when every failing download is a 403 the selection phase
completes, recording exactly the failing URLs as skipped and selecting
exactly the oversized successful ones — a skipped URL is never among the
processed URLs (whose uploads form the substitution map, so its
reference is left unmodified) — whereas any non-403 failure aborts the
phase. -/
theorem download_error_classification :
    (∀ st : Option Nat, dlErrCode st = "ACCESS_DENIED".toList ↔ st = some 403) ∧
    (∀ (es : List (List Char × DlOutcome)) (target : Nat),
      (∀ u st, (u, DlOutcome.failure st) ∈ es → st = some 403) →
      runSelectAll target es = .ok (pF target es, skF es)) ∧
    (∀ (es : List (List Char × DlOutcome)) (target : Nat),
      (es.map Prod.fst).Nodup → ∀ u ∈ skF es, u ∉ pF target es) ∧
    (∀ (es : List (List Char × DlOutcome)) (target : Nat),
      (∃ u st, (u, DlOutcome.failure st) ∈ es ∧ st ≠ some 403) →
      ∃ e, runSelectAll target es = .error e) := by
  refine ⟨?_, ?_, ?_, ?_⟩
  · intro st
    constructor
    · intro h
      by_contra hne
      rw [dlErrCode, if_neg hne] at h
      exact absurd h (by decide)
    · intro h
      rw [dlErrCode, if_pos h]
  · intro es target h
    exact runSelectAll_ok target es h
  · intro es target h
    exact skF_pF_disjoint target es h
  · intro es target h
    exact runSelectAll_aborts target es h

theorem download_error_classification_witness :
    dlErrCode (some 403) = "ACCESS_DENIED".toList ∧
    runSelectAll 10 [("u1".toList, DlOutcome.success 5),
        ("u2".toList, DlOutcome.failure (some 403)), ("u3".toList, DlOutcome.success 50)] =
      .ok (pF 10 [("u1".toList, DlOutcome.success 5),
        ("u2".toList, DlOutcome.failure (some 403)), ("u3".toList, DlOutcome.success 50)],
        skF [("u1".toList, DlOutcome.success 5),
        ("u2".toList, DlOutcome.failure (some 403)), ("u3".toList, DlOutcome.success 50)]) ∧
    ("u2".toList ∉ pF 10 [("u1".toList, DlOutcome.success 5),
        ("u2".toList, DlOutcome.failure (some 403)), ("u3".toList, DlOutcome.success 50)]) ∧
    (∃ e, runSelectAll 10 [("u".toList, DlOutcome.failure (some 500))] = .error e) := by
  have h := download_error_classification
  refine ⟨(h.1 (some 403)).mpr rfl, h.2.1 _ 10 ?_, ?_, h.2.2.2 _ 10 ⟨"u".toList,
    some 500, by decide, by decide⟩⟩
  · intro u st hmem
    simp only [List.mem_cons, List.not_mem_nil, or_false] at hmem
    rcases hmem with h1 | h1 | h1
    · exact absurd (congrArg Prod.snd h1) (by simp)
    · exact DlOutcome.failure.inj (congrArg Prod.snd h1)
    · exact absurd (congrArg Prod.snd h1) (by simp)
  · exact h.2.2.1 _ 10 (by decide) "u2".toList (by decide)

/-! ### Extraction theorems -/

theorem splitStr_pos (f s : List Char) (h : 0 < f.length ∧ begins f s = true) :
    splitStr f s = [] :: splitStr f (s.drop f.length) := by
  rw [splitStr, dif_pos h]

theorem splitStr_neg_nil (f : List Char) (h : ¬(0 < f.length ∧ begins f [] = true)) :
    splitStr f [] = [[]] := by
  rw [splitStr, dif_neg h]

theorem splitStr_neg_cons (f : List Char) (c : Char) (s' : List Char)
    (h : ¬(0 < f.length ∧ begins f (c :: s') = true)) :
    splitStr f (c :: s') = consHead c (splitStr f s') := by
  rw [splitStr, dif_neg h]

theorem splitStr_ne_nil (f s : List Char) : splitStr f s ≠ [] := by
  by_cases h : 0 < f.length ∧ begins f s = true
  · rw [splitStr_pos f s h]
    simp
  · cases s with
    | nil =>
      rw [splitStr_neg_nil f h]
      simp
    | cons c s' =>
      rw [splitStr_neg_cons f c s' h]
      cases splitStr f s' with
      | nil => simp [consHead]
      | cons p ps => simp [consHead]

theorem joinWith_consHead (t : List Char) (c : Char) (ps : List (List Char)) (h : ps ≠ []) :
    joinWith t (consHead c ps) = c :: joinWith t ps := by
  cases ps with
  | nil => exact absurd rfl h
  | cons p ps' =>
    cases ps' with
    | nil => rfl
    | cons p2 ps2 => rfl

theorem joinWith_prependFirst (t : List Char) (x : List Char) (ps : List (List Char))
    (h : ps ≠ []) : joinWith t (prependFirst x ps) = x ++ joinWith t ps := by
  cases ps with
  | nil => exact absurd rfl h
  | cons p ps' =>
    cases ps' with
    | nil => rfl
    | cons p2 ps2 =>
      show (x ++ p) ++ t ++ joinWith t (p2 :: ps2) = x ++ (p ++ t ++ joinWith t (p2 :: ps2))
      simp

theorem begins_append_self (f r : List Char) : begins f (f ++ r) = true := by
  induction f with
  | nil => rfl
  | cons c f' ih => simp [begins, ih]

theorem begins_exists {f s : List Char} (h : begins f s = true) : ∃ r, s = f ++ r := by
  induction f generalizing s with
  | nil => exact ⟨s, rfl⟩
  | cons c f' ih =>
    cases s with
    | nil => simp [begins] at h
    | cons d s' =>
      simp only [begins, Bool.and_eq_true, decide_eq_true_eq] at h
      rcases ih h.2 with ⟨r, rfl⟩
      exact ⟨r, by rw [h.1]; rfl⟩

theorem begins_head_mem {c : Char} {f' s : List Char} (h : begins (c :: f') s = true) :
    c ∈ s := by
  rcases begins_exists h with ⟨r, rfl⟩
  exact List.mem_append.mpr (Or.inl (List.mem_cons_self _ _))

theorem joinWith_cons_of_ne (t p : List Char) (ps : List (List Char)) (h : ps ≠ []) :
    joinWith t (p :: ps) = p ++ t ++ joinWith t ps := by
  cases ps with
  | nil => exact absurd rfl h
  | cons q qs => rfl

theorem splitJoin_splitStr_aux (f : List Char) :
    ∀ (n : Nat) (s : List Char), s.length ≤ n → joinWith f (splitStr f s) = s := by
  intro n
  induction n with
  | zero =>
    intro s hs
    have hnil : s = [] := List.eq_nil_of_length_eq_zero (Nat.le_zero.mp hs)
    subst hnil
    by_cases h : 0 < f.length ∧ begins f [] = true
    · rw [splitStr_pos f [] h]
      rcases begins_exists h.2 with ⟨r, hr⟩
      have := h.1
      cases f with
      | nil => simp at this
      | cons c f' => simp at hr
    · rw [splitStr_neg_nil f h]
      rfl
  | succ n ih =>
    intro s hs
    by_cases h : 0 < f.length ∧ begins f s = true
    · rw [splitStr_pos f s h]
      rcases begins_exists h.2 with ⟨r, rfl⟩
      rw [joinWith_cons_of_ne f _ _ (splitStr_ne_nil f _), List.drop_left, List.nil_append]
      rw [ih r (by
        have := h.1
        simp only [List.length_append] at hs
        omega)]
    · cases s with
      | nil => rw [splitStr_neg_nil f h]; rfl
      | cons c s' =>
        rw [splitStr_neg_cons f c s' h,
          joinWith_consHead f _ _ (splitStr_ne_nil f _),
          ih s' (by simp at hs; omega)]

theorem splitJoin_splitStr (f s : List Char) :
    joinWith f (splitStr f s) = s :=
  splitJoin_splitStr_aux f s.length s le_rfl

theorem mem_splitStr_mem_aux (f : List Char) :
    ∀ (n : Nat) (s p : List Char) (c : Char), s.length ≤ n →
      p ∈ splitStr f s → c ∈ p → c ∈ s := by
  intro n
  induction n with
  | zero =>
    intro s p c hs hp hc
    have hnil : s = [] := List.eq_nil_of_length_eq_zero (Nat.le_zero.mp hs)
    subst hnil
    by_cases h : 0 < f.length ∧ begins f [] = true
    · have := h.1
      cases f with
      | nil => simp at this
      | cons d f' =>
        rcases begins_exists h.2 with ⟨r, hr⟩
        simp at hr
    · rw [splitStr_neg_nil f h] at hp
      rw [List.mem_singleton.mp hp] at hc
      simp at hc
  | succ n ih =>
    intro s p c hs hp hc
    by_cases h : 0 < f.length ∧ begins f s = true
    · rw [splitStr_pos f s h] at hp
      rcases begins_exists h.2 with ⟨r, rfl⟩
      rcases List.mem_cons.mp hp with h1 | h1
      · subst h1; simp at hc
      · rw [List.drop_left] at h1
        refine List.mem_append.mpr (Or.inr ?_)
        refine ih r p c (by
          have := h.1
          simp only [List.length_append] at hs
          omega) h1 hc
    · cases s with
      | nil =>
        rw [splitStr_neg_nil f h] at hp
        rw [List.mem_singleton.mp hp] at hc
        simp at hc
      | cons d s' =>
        rw [splitStr_neg_cons f d s' h] at hp
        cases hsp : splitStr f s' with
        | nil => exact absurd hsp (splitStr_ne_nil f s')
        | cons q qs =>
          rw [hsp, consHead_cons] at hp
          rcases List.mem_cons.mp hp with h1 | h1
          · subst h1
            rcases List.mem_cons.mp hc with h2 | h2
            · exact h2 ▸ List.mem_cons_self _ _
            · refine List.mem_cons_of_mem _ ?_
              exact ih s' q c (by simp at hs; omega) (hsp ▸ List.mem_cons_self _ _) h2
          · refine List.mem_cons_of_mem _ ?_
            exact ih s' p c (by simp at hs; omega) (hsp ▸ List.mem_cons_of_mem _ h1) hc

theorem mem_splitStr_mem (f : List Char) {p s : List Char} {c : Char}
    (hp : p ∈ splitStr f s) (hc : c ∈ p) : c ∈ s :=
  mem_splitStr_mem_aux f s.length s p c le_rfl hp hc

theorem splitStr_no_head (fc : Char) (f' s : List Char) (hs : fc ∉ s) :
    splitStr (fc :: f') s = [s] := by
  induction s with
  | nil => rw [splitStr_neg_nil _ (by
      rintro ⟨_, hb⟩
      simp [begins] at hb)]
  | cons c s' ih =>
    have hne : ¬(0 < (fc :: f').length ∧ begins (fc :: f') (c :: s') = true) := by
      rintro ⟨_, hb⟩
      exact hs (begins_head_mem hb)
    rw [splitStr_neg_cons _ _ _ hne,
      ih (fun hmem => hs (List.mem_cons_of_mem _ hmem)), consHead_cons]

theorem splitStr_prependFirst (fc : Char) (f' x r : List Char) (hx : fc ∉ x) :
    splitStr (fc :: f') (x ++ r) = prependFirst x (splitStr (fc :: f') r) := by
  induction x with
  | nil =>
    rw [List.nil_append]
    cases hsp : splitStr (fc :: f') r with
    | nil => exact absurd hsp (splitStr_ne_nil _ r)
    | cons q qs => rfl
  | cons c x' ih =>
    have hc : fc ≠ c := fun hx2 => hx (hx2 ▸ List.mem_cons_self _ _)
    have hne : ¬(0 < (fc :: f').length ∧ begins (fc :: f') (c :: (x' ++ r)) = true) := by
      rintro ⟨_, hb⟩
      simp only [begins, Bool.and_eq_true, decide_eq_true_eq] at hb
      exact hc hb.1
    rw [List.cons_append, splitStr_neg_cons _ _ _ hne,
      ih (fun hmem => hx (List.mem_cons_of_mem _ hmem))]
    cases hsp : splitStr (fc :: f') r with
    | nil => exact absurd hsp (splitStr_ne_nil _ r)
    | cons q qs => rfl

theorem splitStr_boundary (fc : Char) (f' p r : List Char) (hp : fc ∉ p) :
    splitStr (fc :: f') (p ++ (fc :: f') ++ r) = p :: splitStr (fc :: f') r := by
  induction p with
  | nil =>
    rw [List.nil_append]
    rw [splitStr_pos _ _ ⟨by simp, begins_append_self (fc :: f') r⟩]
    rw [show ((fc :: f') ++ r).drop (fc :: f').length = r from List.drop_left _ _]
  | cons c p' ih =>
    have hc : fc ≠ c := fun hx2 => hp (hx2 ▸ List.mem_cons_self _ _)
    have ih' := ih (fun hmem => hp (List.mem_cons_of_mem _ hmem))
    simp only [List.append_assoc, List.cons_append] at ih' ⊢
    have hne : ¬(0 < (fc :: f').length ∧
        begins (fc :: f') (c :: (p' ++ fc :: (f' ++ r))) = true) := by
      rintro ⟨_, hb⟩
      simp only [begins, Bool.and_eq_true, decide_eq_true_eq] at hb
      exact hc hb.1
    rw [splitStr_neg_cons _ _ _ hne, ih', consHead_cons]

theorem splitJoin_no_head (fc : Char) (f' t s : List Char) (hs : fc ∉ s) :
    splitJoin (fc :: f') t s = s := by
  unfold splitJoin
  rw [splitStr_no_head fc f' s hs]
  rfl

theorem splitJoin_skip (fc : Char) (f' t x r : List Char) (hx : fc ∉ x) :
    splitJoin (fc :: f') t (x ++ r) = x ++ splitJoin (fc :: f') t r := by
  unfold splitJoin
  rw [splitStr_prependFirst fc f' x r hx,
    joinWith_prependFirst _ _ _ (splitStr_ne_nil _ _)]

theorem splitJoin_boundary (fc : Char) (f' g p r : List Char) (hp : fc ∉ p) :
    splitJoin (fc :: f') g (p ++ (fc :: f') ++ r) =
      p ++ g ++ splitJoin (fc :: f') g r := by
  unfold splitJoin
  rw [splitStr_boundary fc f' p r hp,
    joinWith_cons_of_ne _ _ _ (splitStr_ne_nil _ _)]

theorem splitJoin_nil_right (f t : List Char) (hf : f ≠ []) : splitJoin f t [] = [] := by
  unfold splitJoin
  rw [splitStr_neg_nil f (by
    rintro ⟨_, hb⟩
    cases f with
    | nil => exact hf rfl
    | cons c f' => simp [begins] at hb)]
  rfl

/-- Occurrences of `f` in `p ++ x ++ r` never cross the barrier `x`
(whose characters avoid `f`), so the replacement distributes. -/
theorem splitJoin_mid_aux (f t x : List Char) (hf : f ≠ []) (hx : x ≠ [])
    (hxf : ∀ c ∈ x, c ∉ f) :
    ∀ (n : Nat) (p : List Char), p.length ≤ n → ∀ r,
      splitJoin f t (p ++ x ++ r) = splitJoin f t p ++ x ++ splitJoin f t r := by
  cases f with
  | nil => exact absurd rfl hf
  | cons fc f' =>
  set f : List Char := fc :: f' with hfdef
  have hfcx : fc ∉ x := fun hmem => hxf fc hmem (List.mem_cons_self _ _)
  intro n
  induction n with
  | zero =>
    intro p hp r
    have hnil : p = [] := List.eq_nil_of_length_eq_zero (Nat.le_zero.mp hp)
    subst hnil
    rw [List.nil_append, splitJoin_skip fc f' t x r hfcx, splitJoin_nil_right f t hf]
    rfl
  | succ n ih =>
    intro p hp r
    by_cases hbeg : begins f ((p ++ x) ++ r) = true
    · have hle : f.length ≤ p.length := by
        by_contra hgt
        push_neg at hgt
        rcases begins_exists hbeg with ⟨rest0, heq⟩
        have htake : p = f.take p.length := by
          have h1 : ((p ++ x) ++ r).take p.length = p := by
            rw [List.append_assoc, List.take_left]
          have h2 : (f ++ rest0).take p.length = f.take p.length := by
            rw [List.take_append_of_le_length (le_of_lt hgt)]
          rw [heq] at h1
          rw [h2] at h1
          exact h1.symm
        have hdrop : x ++ r = f.drop p.length ++ rest0 := by
          have h1 : ((p ++ x) ++ r).drop p.length = x ++ r := by
            rw [List.append_assoc, List.drop_left]
          have h2 : (f ++ rest0).drop p.length = f.drop p.length ++ rest0 := by
            rw [List.drop_append_of_le_length (le_of_lt hgt)]
          rw [heq] at h1
          rw [h2] at h1
          exact h1.symm
        have hdne : f.drop p.length ≠ [] := by
          intro hdnil
          have := congrArg List.length hdnil
          simp only [List.length_drop, List.length_nil] at this
          omega
        cases hdcase : f.drop p.length with
        | nil => exact hdne hdcase
        | cons d tail =>
          cases x with
          | nil => exact hx rfl
          | cons x0 x' =>
            rw [hdcase] at hdrop
            simp only [List.cons_append] at hdrop
            have hx0 : x0 = d := (List.cons_eq_cons.mp hdrop).1
            have hdmem : d ∈ f := List.drop_subset _ _ (hdcase ▸ List.mem_cons_self _ _)
            exact hxf x0 (List.mem_cons_self _ _) (hx0 ▸ hdmem)
      have hp1 : ∃ p₁, p = f ++ p₁ := by
        rcases begins_exists hbeg with ⟨rest0, heq⟩
        refine ⟨p.drop f.length, ?_⟩
        have htake : p.take f.length = f := by
          have h1 : ((p ++ x) ++ r).take f.length = p.take f.length := by
            rw [List.append_assoc, List.take_append_of_le_length hle]
          have h2 : (f ++ rest0).take f.length = f := List.take_left _ _
          rw [heq] at h1
          rw [h2] at h1
          exact h1.symm
        conv_lhs => rw [← List.take_append_drop f.length p]
        rw [htake]
      rcases hp1 with ⟨p₁, rfl⟩
      have hlen1 : 0 < f.length := by
        rw [hfdef]
        simp
      have hsplit1 : splitJoin f t (((f ++ p₁) ++ x) ++ r) =
          t ++ splitJoin f t ((p₁ ++ x) ++ r) := by
        unfold splitJoin
        rw [show ((f ++ p₁) ++ x) ++ r = f ++ ((p₁ ++ x) ++ r) by simp,
          splitStr_pos f _ ⟨hlen1, begins_append_self f _⟩, List.drop_left,
          joinWith_cons_of_ne _ _ _ (splitStr_ne_nil _ _), List.nil_append]
      have hsplit2 : splitJoin f t (f ++ p₁) = t ++ splitJoin f t p₁ := by
        unfold splitJoin
        rw [splitStr_pos f _ ⟨hlen1, begins_append_self f _⟩, List.drop_left,
          joinWith_cons_of_ne _ _ _ (splitStr_ne_nil _ _), List.nil_append]
      rw [hsplit1, hsplit2, ih p₁ (by
        simp only [List.length_append] at hp
        omega) r]
      simp
    · cases p with
      | nil =>
        rw [List.nil_append, splitJoin_skip fc f' t x r hfcx, splitJoin_nil_right f t hf]
        rfl
      | cons c p' =>
        have hnb1 : ¬(0 < f.length ∧ begins f (c :: ((p' ++ x) ++ r)) = true) := by
          rintro ⟨_, hb⟩
          exact hbeg (by
            rw [show ((c :: p') ++ x) ++ r = c :: ((p' ++ x) ++ r) from rfl]
            exact hb)
        have hnb2 : ¬(0 < f.length ∧ begins f (c :: p') = true) := by
          rintro ⟨_, hb⟩
          rcases begins_exists hb with ⟨rp, hrp⟩
          refine hbeg ?_
          rw [show ((c :: p') ++ x) ++ r = (c :: p') ++ (x ++ r) by simp, hrp,
            List.append_assoc]
          exact begins_append_self f _
        have lhs1 : splitJoin f t (((c :: p') ++ x) ++ r) =
            joinWith t (consHead c (splitStr f ((p' ++ x) ++ r))) := by
          unfold splitJoin
          rw [show ((c :: p') ++ x) ++ r = c :: ((p' ++ x) ++ r) from rfl,
            splitStr_neg_cons f _ _ hnb1]
        have rhs1 : splitJoin f t (c :: p') = joinWith t (consHead c (splitStr f p')) := by
          unfold splitJoin
          rw [splitStr_neg_cons f _ _ hnb2]
        rw [lhs1, rhs1, joinWith_consHead _ _ _ (splitStr_ne_nil _ _),
          joinWith_consHead _ _ _ (splitStr_ne_nil _ _)]
        have := ih p' (by simp at hp; omega) r
        unfold splitJoin at this
        rw [this]
        rfl

theorem splitJoin_mid (f t x p r : List Char) (hf : f ≠ []) (hx : x ≠ [])
    (hxf : ∀ c ∈ x, c ∉ f) :
    splitJoin f t (p ++ x ++ r) = splitJoin f t p ++ x ++ splitJoin f t r :=
  splitJoin_mid_aux f t x hf hx hxf p.length p le_rfl r

/-! ### Interpretation lemmas for the decomposition scaffolding -/

theorem interpS_markPieces_append (e j : Ent) (S : List Seg) (L : List Char) :
    ∀ qs : List (List Char), qs ≠ [] →
      interpS (markPieces e j qs ++ S) L = joinWith e.2 qs ++ j.2 ++ interpS S L := by
  intro qs
  induction qs with
  | nil => intro h; exact absurd rfl h
  | cons q qs ih =>
    intro _
    cases qs with
    | nil => simp [markPieces, interpS, joinWith]
    | cons q' qs' =>
      rw [show markPieces e j (q :: q' :: qs') = (q, e) :: markPieces e j (q' :: qs') from rfl,
        List.cons_append]
      rw [show interpS ((q, e) :: (markPieces e j (q' :: qs') ++ S)) L
            = q ++ e.2 ++ interpS (markPieces e j (q' :: qs') ++ S) L from rfl,
        ih (by simp)]
      conv_rhs => rw [joinWith_cons_of_ne e.2 q (q' :: qs') (by simp)]
      simp [List.append_assoc]

theorem unmarkS_markPieces_append (e j : Ent) (S : List Seg) (L : List Char) :
    ∀ qs : List (List Char), qs ≠ [] →
      unmarkS (markPieces e j qs ++ S) L = joinWith e.1 qs ++ j.1 ++ unmarkS S L := by
  intro qs
  induction qs with
  | nil => intro h; exact absurd rfl h
  | cons q qs ih =>
    intro _
    cases qs with
    | nil => simp [markPieces, unmarkS, joinWith]
    | cons q' qs' =>
      rw [show markPieces e j (q :: q' :: qs') = (q, e) :: markPieces e j (q' :: qs') from rfl,
        List.cons_append]
      rw [show unmarkS ((q, e) :: (markPieces e j (q' :: qs') ++ S)) L
            = q ++ e.1 ++ unmarkS (markPieces e j (q' :: qs') ++ S) L from rfl,
        ih (by simp)]
      conv_rhs => rw [joinWith_cons_of_ne e.1 q (q' :: qs') (by simp)]
      simp [List.append_assoc]

theorem interpS_expandLast (e : Ent) :
    ∀ qs : List (List Char),
      interpS (expandLast e qs).1 (expandLast e qs).2 = joinWith e.2 qs := by
  intro qs
  induction qs with
  | nil => rfl
  | cons q qs ih =>
    cases qs with
    | nil => rfl
    | cons q' qs' =>
      show interpS ((q, e) :: (expandLast e (q' :: qs')).1) (expandLast e (q' :: qs')).2
        = joinWith e.2 (q :: q' :: qs')
      rw [show interpS ((q, e) :: (expandLast e (q' :: qs')).1) (expandLast e (q' :: qs')).2
            = q ++ e.2 ++ interpS (expandLast e (q' :: qs')).1 (expandLast e (q' :: qs')).2
          from rfl, ih]
      conv_rhs => rw [joinWith_cons_of_ne e.2 q (q' :: qs') (by simp)]

theorem unmarkS_expandLast (e : Ent) :
    ∀ qs : List (List Char),
      unmarkS (expandLast e qs).1 (expandLast e qs).2 = joinWith e.1 qs := by
  intro qs
  induction qs with
  | nil => rfl
  | cons q qs ih =>
    cases qs with
    | nil => rfl
    | cons q' qs' =>
      show unmarkS ((q, e) :: (expandLast e (q' :: qs')).1) (expandLast e (q' :: qs')).2
        = joinWith e.1 (q :: q' :: qs')
      rw [show unmarkS ((q, e) :: (expandLast e (q' :: qs')).1) (expandLast e (q' :: qs')).2
            = q ++ e.1 ++ unmarkS (expandLast e (q' :: qs')).1 (expandLast e (q' :: qs')).2
          from rfl, ih]
      conv_rhs => rw [joinWith_cons_of_ne e.1 q (q' :: qs') (by simp)]

/-- One forward substitution step, read through `interpS`, is exactly the
string-level `split(from).join(to)` — provided each marker's inserted text
is a nonempty barrier avoiding the characters of `from`. -/
theorem interpS_sigmaSubst (e : Ent) (he : e.1 ≠ []) :
    ∀ (ps : List Seg) (last : List Char),
      (∀ pr ∈ ps, pr.2.2 ≠ [] ∧ ∀ c ∈ pr.2.2, c ∉ e.1) →
      interpS (sigmaSubst e ps last).1 (sigmaSubst e ps last).2
        = splitJoin e.1 e.2 (interpS ps last) := by
  intro ps
  induction ps with
  | nil =>
    intro last _
    show interpS (expandLast e (splitStr e.1 last)).1 (expandLast e (splitStr e.1 last)).2
      = splitJoin e.1 e.2 (interpS [] last)
    rw [interpS_expandLast]
    rfl
  | cons pr rest ih =>
    intro last hbar
    rcases pr with ⟨p, j⟩
    have hj := hbar (p, j) (List.mem_cons_self _ _)
    show interpS (markPieces e j (splitStr e.1 p) ++ (sigmaSubst e rest last).1)
        (sigmaSubst e rest last).2 = splitJoin e.1 e.2 (interpS ((p, j) :: rest) last)
    rw [interpS_markPieces_append e j _ _ _ (splitStr_ne_nil _ _),
      ih last (fun pr hpr => hbar pr (List.mem_cons_of_mem _ hpr)),
      show interpS ((p, j) :: rest) last = p ++ j.2 ++ interpS rest last from rfl,
      splitJoin_mid e.1 e.2 j.2 p (interpS rest last) he hj.1 hj.2]
    rfl

/-- Forward substitution steps leave the `unmarkS` reading (the original
document) unchanged: `join(from)` undoes `split(from)` piece by piece. -/
theorem unmarkS_sigmaSubst (e : Ent) :
    ∀ (ps : List Seg) (last : List Char),
      unmarkS (sigmaSubst e ps last).1 (sigmaSubst e ps last).2 = unmarkS ps last := by
  intro ps
  induction ps with
  | nil =>
    intro last
    show unmarkS (expandLast e (splitStr e.1 last)).1 (expandLast e (splitStr e.1 last)).2
      = unmarkS [] last
    rw [unmarkS_expandLast, splitJoin_splitStr]
    rfl
  | cons pr rest ih =>
    intro last
    rcases pr with ⟨p, j⟩
    show unmarkS (markPieces e j (splitStr e.1 p) ++ (sigmaSubst e rest last).1)
        (sigmaSubst e rest last).2 = unmarkS ((p, j) :: rest) last
    rw [unmarkS_markPieces_append e j _ _ _ (splitStr_ne_nil _ _), ih, splitJoin_splitStr]
    rfl

theorem undoStep_cons_self_nil (e : Ent) (p : List Char) (rest : List Seg) (last l : List Char)
    (hu : undoStep e rest last = ([], l)) :
    undoStep e ((p, e) :: rest) last = ([], p ++ e.1 ++ l) := by
  simp only [undoStep, hu]
  exact if_pos trivial

theorem undoStep_cons_self_cons (e : Ent) (p q : List Char) (k : Ent) (rest ps' : List Seg)
    (last l : List Char) (hu : undoStep e rest last = ((q, k) :: ps', l)) :
    undoStep e ((p, e) :: rest) last = ((p ++ e.1 ++ q, k) :: ps', l) := by
  simp only [undoStep, hu]
  exact if_pos trivial

theorem undoStep_cons_ne (e : Ent) (p : List Char) (j : Ent) (rest : List Seg)
    (last : List Char) (hj : j ≠ e) :
    undoStep e ((p, j) :: rest) last
      = ((p, j) :: (undoStep e rest last).1, (undoStep e rest last).2) := by
  simp only [undoStep, if_neg hj]

/-- Undoing an entry leaves the `unmarkS` reading unchanged: a marker's
`from` text is merged into the literal exactly where it stood. -/
theorem unmarkS_undoStep (e : Ent) :
    ∀ (ps : List Seg) (last : List Char),
      unmarkS (undoStep e ps last).1 (undoStep e ps last).2 = unmarkS ps last := by
  intro ps
  induction ps with
  | nil => intro last; rfl
  | cons pr0 rest ih =>
    intro last
    rcases pr0 with ⟨p, j⟩
    by_cases hj : j = e
    · rw [hj]
      have ihr := ih last
      rcases hu : undoStep e rest last with ⟨ps', l⟩
      rw [hu] at ihr
      cases ps' with
      | nil =>
        rw [undoStep_cons_self_nil e p rest last l hu]
        show p ++ e.1 ++ l = p ++ e.1 ++ unmarkS rest last
        rw [show l = unmarkS rest last from ihr]
      | cons qk ps'' =>
        rcases qk with ⟨q, k⟩
        rw [undoStep_cons_self_cons e p q k rest ps'' last l hu]
        show (p ++ e.1 ++ q) ++ k.1 ++ unmarkS ps'' l = p ++ e.1 ++ unmarkS rest last
        rw [show unmarkS rest last = q ++ k.1 ++ unmarkS ps'' l from ihr.symm]
        simp [List.append_assoc]
    · rw [undoStep_cons_ne e p j rest last hj]
      show p ++ j.1 ++ unmarkS (undoStep e rest last).1 (undoStep e rest last).2
        = p ++ j.1 ++ unmarkS rest last
      rw [ih last]

/-- Markers surviving `undoStep e` are markers of the input other than
`e`. -/
theorem mem_undoStep (e : Ent) :
    ∀ (ps : List Seg) (last : List Char) (pr : Seg), pr ∈ (undoStep e ps last).1 →
      pr.2 ≠ e ∧ ∃ pr₀ ∈ ps, pr.2 = pr₀.2 := by
  intro ps
  induction ps with
  | nil => intro last pr h; simp [undoStep] at h
  | cons pr0 rest ih =>
    intro last pr h
    rcases pr0 with ⟨p, j⟩
    by_cases hj : j = e
    · rw [hj] at h
      rcases hu : undoStep e rest last with ⟨ps', l⟩
      cases ps' with
      | nil =>
        rw [undoStep_cons_self_nil e p rest last l hu] at h
        simp at h
      | cons qk ps'' =>
        rcases qk with ⟨q, k⟩
        rw [undoStep_cons_self_cons e p q k rest ps'' last l hu] at h
        rcases List.mem_cons.mp h with rfl | h2
        · have hk := ih last (q, k) (by rw [hu]; exact List.mem_cons_self _ _)
          rcases hk with ⟨hne, pr₀, h₀, heq⟩
          exact ⟨hne, pr₀, List.mem_cons_of_mem _ h₀, heq⟩
        · have hk := ih last pr (by rw [hu]; exact List.mem_cons_of_mem _ h2)
          rcases hk with ⟨hne, pr₀, h₀, heq⟩
          exact ⟨hne, pr₀, List.mem_cons_of_mem _ h₀, heq⟩
    · rw [undoStep_cons_ne e p j rest last hj] at h
      rcases List.mem_cons.mp h with rfl | h2
      · exact ⟨hj, (p, j), List.mem_cons_self _ _, rfl⟩
      · rcases ih last pr h2 with ⟨hne, pr₀, h₀, heq⟩
        exact ⟨hne, pr₀, List.mem_cons_of_mem _ h₀, heq⟩

/-- Characters of literals after `undoStep e` come from the input's
literals or from `e`'s restored `from` text. -/
theorem undoStep_lits (e : Ent) :
    ∀ (ps : List Seg) (last : List Char),
      (∀ pr ∈ (undoStep e ps last).1, ∀ c ∈ pr.1,
          (∃ pr₀ ∈ ps, c ∈ pr₀.1) ∨ c ∈ e.1) ∧
      ∀ c ∈ (undoStep e ps last).2,
          (∃ pr₀ ∈ ps, c ∈ pr₀.1) ∨ c ∈ e.1 ∨ c ∈ last := by
  intro ps
  induction ps with
  | nil =>
    intro last
    exact ⟨fun pr h => by simp [undoStep] at h, fun c hc => Or.inr (Or.inr hc)⟩
  | cons pr0 rest ih =>
    intro last
    rcases pr0 with ⟨p, j⟩
    have lift1 : ∀ c : Char, (∃ pr₀ ∈ rest, c ∈ pr₀.1) ∨ c ∈ e.1 →
        (∃ pr₀ ∈ (p, j) :: rest, c ∈ pr₀.1) ∨ c ∈ e.1 := by
      rintro c (⟨pr₀, h₀, hc₀⟩ | hc₀)
      · exact Or.inl ⟨pr₀, List.mem_cons_of_mem _ h₀, hc₀⟩
      · exact Or.inr hc₀
    have lift2 : ∀ c : Char, (∃ pr₀ ∈ rest, c ∈ pr₀.1) ∨ c ∈ e.1 ∨ c ∈ last →
        (∃ pr₀ ∈ (p, j) :: rest, c ∈ pr₀.1) ∨ c ∈ e.1 ∨ c ∈ last := by
      rintro c (⟨pr₀, h₀, hc₀⟩ | hc₀)
      · exact Or.inl ⟨pr₀, List.mem_cons_of_mem _ h₀, hc₀⟩
      · exact Or.inr hc₀
    by_cases hj : j = e
    · rw [hj]
      rw [hj] at lift1 lift2
      rcases hu : undoStep e rest last with ⟨ps', l⟩
      have ihr := ih last
      rw [hu] at ihr
      cases ps' with
      | nil =>
        rw [undoStep_cons_self_nil e p rest last l hu]
        refine ⟨fun pr h => by simp at h, fun c hc => ?_⟩
        rcases List.mem_append.mp hc with hc1 | hc1
        · rcases List.mem_append.mp hc1 with hc2 | hc2
          · exact Or.inl ⟨(p, e), List.mem_cons_self _ _, hc2⟩
          · exact Or.inr (Or.inl hc2)
        · have := ihr.2 c hc1
          rcases this with ⟨pr₀, h₀, hc₀⟩ | hc₀
          · exact Or.inl ⟨pr₀, List.mem_cons_of_mem _ h₀, hc₀⟩
          · exact Or.inr hc₀
      | cons qk ps'' =>
        rcases qk with ⟨q, k⟩
        rw [undoStep_cons_self_cons e p q k rest ps'' last l hu]
        constructor
        · intro pr h
          rcases List.mem_cons.mp h with rfl | h2
          · intro c hc
            rcases List.mem_append.mp hc with hc1 | hc1
            · rcases List.mem_append.mp hc1 with hc2 | hc2
              · exact Or.inl ⟨(p, e), List.mem_cons_self _ _, hc2⟩
              · exact Or.inr hc2
            · have := ihr.1 (q, k) (List.mem_cons_self _ _) c hc1
              exact lift1 c (by
                rcases this with ⟨pr₀, h₀, hc₀⟩ | hc₀
                · exact Or.inl ⟨pr₀, h₀, hc₀⟩
                · exact Or.inr hc₀)
          · intro c hc
            exact lift1 c (ihr.1 pr (List.mem_cons_of_mem _ h2) c hc)
        · intro c hc
          have := ihr.2 c hc
          rcases this with ⟨pr₀, h₀, hc₀⟩ | hc₀
          · exact Or.inl ⟨pr₀, List.mem_cons_of_mem _ h₀, hc₀⟩
          · exact Or.inr hc₀
    · rw [undoStep_cons_ne e p j rest last hj]
      constructor
      · intro pr h
        rcases List.mem_cons.mp h with rfl | h2
        · intro c hc
          exact Or.inl ⟨(p, j), List.mem_cons_self _ _, hc⟩
        · intro c hc
          exact lift1 c ((ih last).1 pr h2 c hc)
      · intro c hc
        exact lift2 c ((ih last).2 c hc)

/-- Undoing entry `e` at the decomposition level is exactly the
string-level `split(to).join(from)` applied to the `interpS` reading:
literals avoid `to`'s characters, each marker for `e` is a genuine
occurrence, and other markers are barriers. -/
theorem interpS_undoStep (e : Ent) (fc : Char) (f' : List Char) (he2 : e.2 = fc :: f') :
    ∀ (ps : List Seg) (last : List Char),
      (∀ pr ∈ ps, ∀ c ∈ e.2, c ∉ pr.1) →
      (∀ c ∈ e.2, c ∉ last) →
      (∀ pr ∈ ps, pr.2 ≠ e → pr.2.2 ≠ [] ∧ ∀ c ∈ pr.2.2, c ∉ e.2) →
      splitJoin e.2 e.1 (interpS ps last)
        = interpS (undoStep e ps last).1 (undoStep e ps last).2 := by
  have hfc : fc ∈ e.2 := by rw [he2]; exact List.mem_cons_self _ _
  intro ps
  induction ps with
  | nil =>
    intro last _ hlast _
    show splitJoin e.2 e.1 last = last
    rw [he2]
    exact splitJoin_no_head fc f' e.1 last (hlast fc hfc)
  | cons pr0 rest ih =>
    intro last hlit hlast hmk
    rcases pr0 with ⟨p, j⟩
    have hfcp : fc ∉ p := hlit (p, j) (List.mem_cons_self _ _) fc hfc
    have ihr := ih last (fun pr hpr => hlit pr (List.mem_cons_of_mem _ hpr)) hlast
      (fun pr hpr => hmk pr (List.mem_cons_of_mem _ hpr))
    by_cases hj : j = e
    · rw [hj]
      rcases hu : undoStep e rest last with ⟨ps', l⟩
      rw [hu] at ihr
      have hb : splitJoin e.2 e.1 (interpS ((p, e) :: rest) last)
          = p ++ e.1 ++ splitJoin e.2 e.1 (interpS rest last) := by
        rw [show interpS ((p, e) :: rest) last = p ++ e.2 ++ interpS rest last from rfl, he2]
        exact splitJoin_boundary fc f' e.1 p (interpS rest last) hfcp
      rw [hb]
      cases ps' with
      | nil =>
        rw [undoStep_cons_self_nil e p rest last l hu]
        show p ++ e.1 ++ splitJoin e.2 e.1 (interpS rest last) = p ++ e.1 ++ l
        rw [show splitJoin e.2 e.1 (interpS rest last) = l from ihr]
      | cons qk ps'' =>
        rcases qk with ⟨q, k⟩
        rw [undoStep_cons_self_cons e p q k rest ps'' last l hu]
        show p ++ e.1 ++ splitJoin e.2 e.1 (interpS rest last)
          = (p ++ e.1 ++ q) ++ k.2 ++ interpS ps'' l
        rw [show splitJoin e.2 e.1 (interpS rest last) = q ++ k.2 ++ interpS ps'' l from ihr]
        simp [List.append_assoc]
    · have hne2 : e.2 ≠ [] := by rw [he2]; simp
      have hmkj := hmk (p, j) (List.mem_cons_self _ _) hj
      have hstep : splitJoin e.2 e.1 (interpS ((p, j) :: rest) last)
          = p ++ j.2 ++ splitJoin e.2 e.1 (interpS rest last) := by
        rw [show interpS ((p, j) :: rest) last = p ++ j.2 ++ interpS rest last from rfl,
          splitJoin_mid e.2 e.1 j.2 p (interpS rest last) hne2 hmkj.1 hmkj.2,
          show splitJoin e.2 e.1 p = p from by
            rw [he2]; exact splitJoin_no_head fc f' e.1 p hfcp]
      rw [hstep, undoStep_cons_ne e p j rest last hj]
      show p ++ j.2 ++ splitJoin e.2 e.1 (interpS rest last)
        = p ++ j.2 ++ interpS (undoStep e rest last).1 (undoStep e rest last).2
      rw [ihr]

/-- Once every remaining marker's entry is scheduled for undoing, the
backward pass ends with no markers left. -/
theorem bwdS_clears :
    ∀ (ms : List Ent) (ps : List Seg) (last : List Char),
      (∀ pr ∈ ps, pr.2 ∈ ms) → (bwdS ms (ps, last)).1 = [] := by
  intro ms
  induction ms with
  | nil =>
    intro ps last h
    cases ps with
    | nil => rfl
    | cons pr ps' => exact absurd (h pr (List.mem_cons_self _ _)) (List.not_mem_nil _)
  | cons e ms' ih =>
    intro ps last h
    show (bwdS ms' (undoStep e ps last)).1 = []
    rcases hu : undoStep e ps last with ⟨ps', l⟩
    apply ih ps' l
    intro pr hpr
    have hm := mem_undoStep e ps last pr (by rw [hu]; exact hpr)
    rcases hm with ⟨hne, pr₀, h₀, heq⟩
    have := h pr₀ h₀
    rcases List.mem_cons.mp this with h1 | h1
    · exact absurd (heq.trans h1) hne
    · exact heq ▸ h1

theorem mem_markPieces (e j : Ent) :
    ∀ (qs : List (List Char)) (pr : Seg), pr ∈ markPieces e j qs →
      pr.1 ∈ qs ∧ (pr.2 = e ∨ pr.2 = j) := by
  intro qs
  induction qs with
  | nil => intro pr h; simp [markPieces] at h
  | cons q qs ih =>
    intro pr h
    cases qs with
    | nil =>
      rw [show markPieces e j [q] = [(q, j)] from rfl] at h
      rcases List.mem_singleton.mp h with rfl
      simp
    | cons q' qs' =>
      rw [show markPieces e j (q :: q' :: qs') = (q, e) :: markPieces e j (q' :: qs')
          from rfl] at h
      rcases List.mem_cons.mp h with rfl | h2
      · simp
      · rcases ih pr h2 with ⟨hq, hm⟩
        exact ⟨List.mem_cons_of_mem _ hq, hm⟩

theorem mem_expandLast (e : Ent) :
    ∀ (qs : List (List Char)) (pr : Seg), pr ∈ (expandLast e qs).1 →
      pr.1 ∈ qs ∧ pr.2 = e := by
  intro qs
  induction qs with
  | nil => intro pr h; simp [expandLast] at h
  | cons q qs ih =>
    intro pr h
    cases qs with
    | nil => simp [expandLast] at h
    | cons q' qs' =>
      rw [show (expandLast e (q :: q' :: qs')).1 = (q, e) :: (expandLast e (q' :: qs')).1
          from rfl] at h
      rcases List.mem_cons.mp h with rfl | h2
      · simp
      · rcases ih pr h2 with ⟨hq, hm⟩
        exact ⟨List.mem_cons_of_mem _ hq, hm⟩

theorem expandLast_snd_mem (e : Ent) :
    ∀ qs : List (List Char), qs ≠ [] → (expandLast e qs).2 ∈ qs := by
  intro qs
  induction qs with
  | nil => intro h; exact absurd rfl h
  | cons q qs ih =>
    intro _
    cases qs with
    | nil => simp [expandLast]
    | cons q' qs' =>
      rw [show (expandLast e (q :: q' :: qs')).2 = (expandLast e (q' :: qs')).2 from rfl]
      exact List.mem_cons_of_mem _ (ih (by simp))

/-- Provenance of markers and literal characters through one forward
substitution step. -/
theorem sigmaSubst_mem (e : Ent) :
    ∀ (ps : List Seg) (last : List Char),
      (∀ pr ∈ (sigmaSubst e ps last).1,
          (pr.2 = e ∨ ∃ pr₀ ∈ ps, pr.2 = pr₀.2) ∧
          ∀ c ∈ pr.1, (∃ pr₀ ∈ ps, c ∈ pr₀.1) ∨ c ∈ last) ∧
      ∀ c ∈ (sigmaSubst e ps last).2, (∃ pr₀ ∈ ps, c ∈ pr₀.1) ∨ c ∈ last := by
  intro ps
  induction ps with
  | nil =>
    intro last
    constructor
    · intro pr h
      rcases mem_expandLast e _ pr h with ⟨hq, hm⟩
      exact ⟨Or.inl hm, fun c hc => Or.inr (mem_splitStr_mem e.1 hq hc)⟩
    · intro c hc
      have hm := expandLast_snd_mem e (splitStr e.1 last) (splitStr_ne_nil _ _)
      exact Or.inr (mem_splitStr_mem e.1 hm hc)
  | cons pr0 rest ih =>
    intro last
    rcases pr0 with ⟨p, j⟩
    constructor
    · intro pr h
      rw [show (sigmaSubst e ((p, j) :: rest) last).1
            = markPieces e j (splitStr e.1 p) ++ (sigmaSubst e rest last).1 from rfl] at h
      rcases List.mem_append.mp h with h1 | h2
      · rcases mem_markPieces e j _ pr h1 with ⟨hq, hm⟩
        constructor
        · rcases hm with he' | hjj
          · exact Or.inl he'
          · exact Or.inr ⟨(p, j), List.mem_cons_self _ _, hjj⟩
        · intro c hc
          exact Or.inl ⟨(p, j), List.mem_cons_self _ _, mem_splitStr_mem e.1 hq hc⟩
      · rcases (ih last).1 pr h2 with ⟨hm, hl⟩
        constructor
        · rcases hm with he' | ⟨pr₀, h₀, heq⟩
          · exact Or.inl he'
          · exact Or.inr ⟨pr₀, List.mem_cons_of_mem _ h₀, heq⟩
        · intro c hc
          rcases hl c hc with ⟨pr₀, h₀, hc₀⟩ | hc₀
          · exact Or.inl ⟨pr₀, List.mem_cons_of_mem _ h₀, hc₀⟩
          · exact Or.inr hc₀
    · intro c hc
      rw [show (sigmaSubst e ((p, j) :: rest) last).2 = (sigmaSubst e rest last).2
          from rfl] at hc
      rcases (ih last).2 c hc with ⟨pr₀, h₀, hc₀⟩ | hc₀
      · exact Or.inl ⟨pr₀, List.mem_cons_of_mem _ h₀, hc₀⟩
      · exact Or.inr hc₀

/-- The forward pass at the decomposition level: its `interpS` reading is
the string-level fold, its `unmarkS` reading stays the original document,
and the marker/literal invariants are maintained. -/
theorem fwdS_spec (mAll : List Ent)
    (h1 : ∀ e ∈ mAll, e.1 ≠ []) (h2 : ∀ e ∈ mAll, e.2 ≠ [])
    (h21 : ∀ e ∈ mAll, ∀ j ∈ mAll, Disj e.2 j.1) :
    ∀ ms : List Ent, (∀ e ∈ ms, e ∈ mAll) →
    ∀ (ps : List Seg) (last : List Char), MarkersIn mAll ps → LitsDisj mAll ps last →
      interpS (fwdS ms (ps, last)).1 (fwdS ms (ps, last)).2
          = replaceImageUrls (interpS ps last) ms
        ∧ unmarkS (fwdS ms (ps, last)).1 (fwdS ms (ps, last)).2 = unmarkS ps last
        ∧ MarkersIn mAll (fwdS ms (ps, last)).1
        ∧ LitsDisj mAll (fwdS ms (ps, last)).1 (fwdS ms (ps, last)).2 := by
  intro ms
  induction ms with
  | nil =>
    intro _ ps last hM hL
    exact ⟨rfl, rfl, hM, hL⟩
  | cons e ms' ih =>
    intro hsub ps last hM hL
    have heAll : e ∈ mAll := hsub e (List.mem_cons_self _ _)
    have hM' : MarkersIn mAll (sigmaSubst e ps last).1 := by
      intro pr hpr
      rcases (sigmaSubst_mem e ps last).1 pr hpr with ⟨hmk, _⟩
      rcases hmk with he' | ⟨pr₀, h₀, heq⟩
      · exact he' ▸ heAll
      · exact heq ▸ hM pr₀ h₀
    have hL' : LitsDisj mAll (sigmaSubst e ps last).1 (sigmaSubst e ps last).2 := by
      constructor
      · intro pr hpr g hg c hc hmem
        rcases ((sigmaSubst_mem e ps last).1 pr hpr).2 c hmem with ⟨pr₀, h₀, hc₀⟩ | hc₀
        · exact hL.1 pr₀ h₀ g hg c hc hc₀
        · exact hL.2 g hg c hc hc₀
      · intro g hg c hc hmem
        rcases (sigmaSubst_mem e ps last).2 c hmem with ⟨pr₀, h₀, hc₀⟩ | hc₀
        · exact hL.1 pr₀ h₀ g hg c hc hc₀
        · exact hL.2 g hg c hc hc₀
    have hbar : ∀ pr ∈ ps, pr.2.2 ≠ [] ∧ ∀ c ∈ pr.2.2, c ∉ e.1 := by
      intro pr hpr
      have hj : pr.2 ∈ mAll := hM pr hpr
      exact ⟨h2 pr.2 hj, fun c hc => h21 pr.2 hj e heAll c hc⟩
    have hfst := interpS_sigmaSubst e (h1 e heAll) ps last hbar
    have hsnd := unmarkS_sigmaSubst e ps last
    have ihall := ih (fun g hg => hsub g (List.mem_cons_of_mem _ hg))
      (sigmaSubst e ps last).1 (sigmaSubst e ps last).2 hM' hL'
    refine ⟨?_, ?_, ihall.2.2.1, ihall.2.2.2⟩
    · have hstep : replaceImageUrls (interpS ps last) (e :: ms')
          = replaceImageUrls
              (interpS (sigmaSubst e ps last).1 (sigmaSubst e ps last).2) ms' := by
        rw [show replaceImageUrls (interpS ps last) (e :: ms')
              = replaceImageUrls (splitJoin e.1 e.2 (interpS ps last)) ms' from rfl, hfst]
      rw [hstep]
      exact ihall.1
    · exact (ihall.2.1).trans hsnd

/-- The backward pass at the decomposition level: its `interpS` reading
is the string-level fold over the inverse map, and its `unmarkS` reading
is unchanged. -/
theorem bwdS_spec (mAll : List Ent)
    (h2 : ∀ e ∈ mAll, e.2 ≠ [])
    (h21 : ∀ e ∈ mAll, ∀ j ∈ mAll, Disj e.2 j.1)
    (h22 : ∀ e ∈ mAll, ∀ j ∈ mAll, j ≠ e → Disj e.2 j.2) :
    ∀ ms : List Ent, (∀ e ∈ ms, e ∈ mAll) →
    ∀ (ps : List Seg) (last : List Char), MarkersIn mAll ps → LitsDisj mAll ps last →
      replaceImageUrls (interpS ps last) (invMap ms)
          = interpS (bwdS ms (ps, last)).1 (bwdS ms (ps, last)).2
        ∧ unmarkS (bwdS ms (ps, last)).1 (bwdS ms (ps, last)).2 = unmarkS ps last
        ∧ MarkersIn mAll (bwdS ms (ps, last)).1
        ∧ LitsDisj mAll (bwdS ms (ps, last)).1 (bwdS ms (ps, last)).2 := by
  intro ms
  induction ms with
  | nil => intro _ ps last hM hL; exact ⟨rfl, rfl, hM, hL⟩
  | cons e ms' ih =>
    intro hsub ps last hM hL
    have heAll : e ∈ mAll := hsub e (List.mem_cons_self _ _)
    obtain ⟨fc, f', he2⟩ : ∃ fc f', e.2 = fc :: f' := by
      cases hcc : e.2 with
      | nil => exact absurd hcc (h2 e heAll)
      | cons a b => exact ⟨a, b, rfl⟩
    have hlit : ∀ pr ∈ ps, ∀ c ∈ e.2, c ∉ pr.1 := fun pr hpr => hL.1 pr hpr e heAll
    have hlast : ∀ c ∈ e.2, c ∉ last := hL.2 e heAll
    have hmk : ∀ pr ∈ ps, pr.2 ≠ e → pr.2.2 ≠ [] ∧ ∀ c ∈ pr.2.2, c ∉ e.2 := by
      intro pr hpr hne
      have hj : pr.2 ∈ mAll := hM pr hpr
      exact ⟨h2 pr.2 hj, fun c hc => h22 pr.2 hj e heAll (Ne.symm hne) c hc⟩
    have hint := interpS_undoStep e fc f' he2 ps last hlit hlast hmk
    have hunm := unmarkS_undoStep e ps last
    have hM' : MarkersIn mAll (undoStep e ps last).1 := by
      intro pr hpr
      rcases mem_undoStep e ps last pr hpr with ⟨_, pr₀, h₀, heq⟩
      exact heq ▸ hM pr₀ h₀
    have hL' : LitsDisj mAll (undoStep e ps last).1 (undoStep e ps last).2 := by
      constructor
      · intro pr hpr g hg c hc hmem
        rcases (undoStep_lits e ps last).1 pr hpr c hmem with ⟨pr₀, h₀, hc₀⟩ | hc₀
        · exact hL.1 pr₀ h₀ g hg c hc hc₀
        · exact h21 g hg e heAll c hc hc₀
      · intro g hg c hc hmem
        rcases (undoStep_lits e ps last).2 c hmem with ⟨pr₀, h₀, hc₀⟩ | hc₀ | hc₀
        · exact hL.1 pr₀ h₀ g hg c hc hc₀
        · exact h21 g hg e heAll c hc hc₀
        · exact hL.2 g hg c hc hc₀
    have ihall := ih (fun g hg => hsub g (List.mem_cons_of_mem _ hg))
      (undoStep e ps last).1 (undoStep e ps last).2 hM' hL'
    refine ⟨?_, ?_, ihall.2.2.1, ihall.2.2.2⟩
    · have hstep : replaceImageUrls (interpS ps last) (invMap (e :: ms'))
          = replaceImageUrls (splitJoin e.2 e.1 (interpS ps last)) (invMap ms') := rfl
      rw [hstep, hint]
      exact ihall.1
    · exact (ihall.2.1).trans hunm

/-- C8 (counterexample to the claim as stated): the map
`m = [("a" -> "x")]` is invertible (distinct old URLs, distinct new URLs)
and its old URLs are disjoint from its new URLs as sets, yet on the
document `"xa"` the round trip
`replaceImageUrls(replaceImageUrls(doc, m), inverse(m))` yields `"aa"`,
not `doc`: the forward pass rewrites `"xa"` to `"xx"`, and the backward
pass cannot tell the preexisting `x` of the document from the inserted
one, restoring both to `a`. -/
theorem roundtrip_counterexample :
    (List.Nodup (([(['a'], ['x'])] : List Ent).map Prod.fst)
      ∧ List.Nodup (([(['a'], ['x'])] : List Ent).map Prod.snd)
      ∧ ∀ e ∈ ([(['a'], ['x'])] : List Ent), ∀ e' ∈ ([(['a'], ['x'])] : List Ent),
          e.1 ≠ e'.2)
    ∧ replaceImageUrls (replaceImageUrls ['x', 'a'] [(['a'], ['x'])])
        (invMap [(['a'], ['x'])]) ≠ ['x', 'a'] := by
  constructor
  · decide
  · have h1 : splitJoin ['a'] ['x'] ['x', 'a'] = ['x', 'x'] := by
      have hb := splitJoin_boundary 'a' [] ['x'] ['x'] [] (by decide)
      have hn := splitJoin_nil_right ['a'] ['x'] (by decide)
      simpa [hn] using hb
    have h2 : splitJoin ['x'] ['a'] ['x', 'x'] = ['a', 'a'] := by
      have hb2 := splitJoin_boundary 'x' [] ['a'] [] [] (by decide)
      have hn := splitJoin_nil_right ['x'] ['a'] (by decide)
      have hb2' : splitJoin ['x'] ['a'] ['x'] = ['a'] := by simpa [hn] using hb2
      have hb1 := splitJoin_boundary 'x' [] ['a'] [] ['x'] (by decide)
      simpa [hb2'] using hb1
    rw [show replaceImageUrls ['x', 'a'] [(['a'], ['x'])] = splitJoin ['a'] ['x'] ['x', 'a']
        from rfl, h1,
      show replaceImageUrls ['x', 'x'] (invMap [(['a'], ['x'])])
          = splitJoin ['x'] ['a'] ['x', 'x'] from rfl, h2]
    decide

/-- C8 (amended): the substitution round trip
`replaceImageUrls(replaceImageUrls(doc, m), inverse(m)) = doc` holds
under the freshness hypothesis `FreshMap doc m`: every entry has
nonempty URLs and the characters of each new URL occur neither in the
document, nor in any old URL, nor in any other new URL — so every
occurrence of a new URL in the substituted document is one the forward
pass inserted. -/
theorem substitution_roundtrip (doc : List Char) (m : List Ent) (h : FreshMap doc m) :
    replaceImageUrls (replaceImageUrls doc m) (invMap m) = doc := by
  have h1 : ∀ e ∈ m, e.1 ≠ [] := fun e he => (h e he).1
  have h2 : ∀ e ∈ m, e.2 ≠ [] := fun e he => (h e he).2.1
  have h21 : ∀ e ∈ m, ∀ j ∈ m, Disj e.2 j.1 := fun e he j hj => ((h e he).2.2.2 j hj).1
  have h22 : ∀ e ∈ m, ∀ j ∈ m, j ≠ e → Disj e.2 j.2 :=
    fun e he j hj hne => ((h e he).2.2.2 j hj).2 hne
  have hdoc : ∀ e ∈ m, Disj e.2 doc := fun e he => (h e he).2.2.1
  have hM0 : MarkersIn m ([] : List Seg) := fun pr hpr => absurd hpr (List.not_mem_nil _)
  have hL0 : LitsDisj m ([] : List Seg) doc :=
    ⟨fun pr hpr => absurd hpr (List.not_mem_nil _), hdoc⟩
  have hf := fwdS_spec m h1 h2 h21 m (fun e he => he) [] doc hM0 hL0
  rcases hσ : fwdS m ([], doc) with ⟨psF, lastF⟩
  rw [hσ] at hf
  have hb := bwdS_spec m h2 h21 h22 m (fun e he => he) psF lastF hf.2.2.1 hf.2.2.2
  rcases hτ : bwdS m (psF, lastF) with ⟨psB, lastB⟩
  rw [hτ] at hb
  have hclr : psB = [] := by
    have hc := bwdS_clears m psF lastF (fun pr hpr => hf.2.2.1 pr hpr)
    rw [hτ] at hc
    exact hc
  have hfi : interpS psF lastF = replaceImageUrls doc m := hf.1
  have hbi : replaceImageUrls (interpS psF lastF) (invMap m) = interpS psB lastB := hb.1
  have hui : unmarkS psB lastB = doc := (hb.2.1).trans hf.2.1
  rw [← hfi, hbi, hclr]
  rw [hclr] at hui
  exact hui

/-- C8 witness: on the document `"ab"` with map `[("b" -> "z")]` the
freshness hypothesis holds concretely and the round trip restores the
document. -/
theorem substitution_roundtrip_witness :
    FreshMap ['a', 'b'] [(['b'], ['z'])]
      ∧ replaceImageUrls (replaceImageUrls ['a', 'b'] [(['b'], ['z'])])
          (invMap [(['b'], ['z'])]) = ['a', 'b'] := by
  constructor
  · unfold FreshMap Disj
    decide
  · exact substitution_roundtrip ['a', 'b'] [(['b'], ['z'])] (by unfold FreshMap Disj; decide)

end Qic
